import Mathlib

/-!
# Verification of the tensornode incentive / allocation subsystem

Shallow embedding of the core logic of the repository:

* `backend/scripts/mint_tao_daily.py` — the distribution engine
  (`_compute_distribution`, `_fetch_master_scores` averaging);
* `backend/server.py` — the submission parser (`_parse_messages_to_pairs`),
  the scorer (`_openai_score_answer` with its `_numeric_heuristic` fallback),
  the aggregator (`_aggregate_scores`), and the VM allocation registry
  (`allocate_vm_to_miner`, the registry update of `docker_stop`,
  `record_new_vms_as_inactive`, `_extract_vms_from_deploy_result`).

Modelling conventions:

* Python `int` is modelled as `Int` (or `Nat` where the source value is
  provably non-negative), JSON-like values as the `Json` inductive below,
  Python dicts as insertion-ordered association lists.
* Python float arithmetic on the small integer magnitudes this code handles
  (`0.20 * total`, `(pool * s) / score_sum`, `sum(scores) / len(scores)`,
  ratio thresholds `0.66` / `0.33`) is modelled as exact rational arithmetic;
  for the magnitudes involved the IEEE results agree with the exact values.
* External calls (the OpenAI HTTP request, the Fluence deploy call, the three
  stage JSON decode of an incoming ledger message payload) are modelled by
  parameters carrying their outcome.
* Python string helpers `str.lower` / `str.strip` / `str.split()` are modelled
  over the character lists of Lean strings (ASCII case mapping, standard
  whitespace), and `re.findall(r"-?\d+", s)` by an equivalent left-to-right
  maximal-munch scanner over ASCII digits.
-/

/-! ## Python string helpers -/

/-- Model of Python `str.lower()` (ASCII case mapping). -/
def pyLower (s : String) : String := String.mk (s.data.map Char.toLower)

/-- Model of Python `str.strip()`: drop leading and trailing whitespace. -/
def pyStrip (s : String) : String :=
  String.mk (((s.data.dropWhile Char.isWhitespace).reverse.dropWhile Char.isWhitespace).reverse)

/-- Model of Python `sub in s` on strings: `sub` occurs as a contiguous
substring (over character lists). -/
def containsSub (sub : List Char) : List Char → Bool
  | [] => sub.isEmpty
  | c :: rest => sub.isPrefixOf (c :: rest) || containsSub sub rest

/-- Helper for `pyWords`: accumulate the current word (reversed) while
splitting at whitespace runs. -/
def pyWordsGo : List Char → List Char → List String
  | acc, [] => if acc.isEmpty then [] else [String.mk acc.reverse]
  | acc, c :: cs =>
    if c.isWhitespace then
      (if acc.isEmpty then pyWordsGo [] cs else String.mk acc.reverse :: pyWordsGo [] cs)
    else pyWordsGo (c :: acc) cs

/-- Model of Python `str.split()` with no argument: split at whitespace runs,
discarding empty pieces. -/
def pyWords (s : String) : List String := pyWordsGo [] s.data

/-- First-occurrence deduplication, i.e. the element order a Python `set`
built incrementally... more precisely: `dedup l` keeps the first occurrence of
every element of `l`, in order.  Used to model `set(...)` where only the
cardinality or membership of the set matters. -/
def dedup : List String → List String :=
  go []
where
  /-- Recursive worker carrying the elements already seen. -/
  go : List String → List String → List String
  | _, [] => []
  | seen, x :: xs => if x ∈ seen then go seen xs else x :: go (x :: seen) xs

/-! ## Distribution engine — `_compute_distribution`
(`backend/scripts/mint_tao_daily.py`, lines 132-204) -/

/-- Total of the payout amounts whose recipient equals `w` (the code keeps
payouts as a `list[tuple[str, int]]`; a recipient may own several entries). -/
def amountOf (w : String) (payouts : List (String × Int)) : Int :=
  ((payouts.filter (fun e => e.1 = w)).map (fun e => e.2)).sum

/-- Total of all payout amounts (`sum(amount for _, amount in payouts)`). -/
def totalAmount (payouts : List (String × Int)) : Int :=
  (payouts.map (fun e => e.2)).sum

/-- The validator remainder loop body (source lines 196-200): scan `payouts`
for the first entry whose recipient is `w` and add 1 to it; the loop has no
`else` clause, so when no entry matches nothing happens. -/
def bumpFirst : List (String × Int) → String → List (String × Int)
  | [], _ => []
  | (k, v) :: rest, w => if k = w then (k, v + 1) :: rest else (k, v) :: bumpFirst rest w

/-- The miner remainder loop body (source lines 175-180): same scan, but with a
`for ... else` that appends `(w, 1)` when no entry matches. -/
def bumpOrAppend : List (String × Int) → String → List (String × Int)
  | [], w => [(w, 1)]
  | (k, v) :: rest, w => if k = w then (k, v + 1) :: rest else (k, v) :: bumpOrAppend rest w

/-- `miner_items` (source line 153): `[(w, max(0, int(s))) for w, s in avg_scores.items()]`.
The `isinstance(w, str)` guard always holds in the model, where keys are strings. -/
def miner_items_of (avg_scores : List (String × Int)) : List (String × ℕ) :=
  avg_scores.map (fun p => (p.1, p.2.toNat))

/-- `score_sum` (source line 154). -/
def score_sum_of (avg_scores : List (String × Int)) : ℕ :=
  ((miner_items_of avg_scores).map (fun p => p.2)).sum

/-- One `shares` entry (source lines 159-166): wallet, floored share
`int(math.floor((miners_pool * s) / score_sum))`, and the fractional part
`raw - base` (floats modelled as exact rationals). -/
def share_of (pool ssum : ℕ) (p : String × ℕ) : String × ℕ × ℚ :=
  (p.1, pool * p.2 / ssum, (pool * p.2 : ℚ) / ssum - ((pool * p.2 / ssum : ℕ) : ℚ))

/-- The full `shares` list (source lines 158-166). -/
def shares_of (pool ssum : ℕ) (items : List (String × ℕ)) : List (String × ℕ × ℚ) :=
  items.map (share_of pool ssum)

/-- Stable descending insertion by fractional part: the inserted element goes
after every element with a strictly larger fraction and before the first
element whose fraction is less than or equal to its own. -/
def insertShareDesc (x : String × ℕ × ℚ) : List (String × ℕ × ℚ) → List (String × ℕ × ℚ)
  | [] => [x]
  | y :: ys => if x.2.2 < y.2.2 then y :: insertShareDesc x ys else x :: y :: ys

/-- Model of `shares.sort(key=lambda x: x[2], reverse=True)` (source line 170).
Python list sort is stable and `reverse=True` preserves the order of equal
keys, so the result equals this stable descending insertion sort. -/
def sortSharesDesc : List (String × ℕ × ℚ) → List (String × ℕ × ℚ)
  | [] => []
  | x :: xs => insertShareDesc x (sortSharesDesc xs)

/-- The miner-pool block of `_compute_distribution` (source lines 152-183):
append the positive floored shares to `payouts`, then hand the rounding
remainder out one unit at a time to the wallets with the highest fractional
parts (the `while` loop visits the first `remaining` entries of the sorted
`shares`, stopping early if it runs off the end, which `List.take` mirrors). -/
def miner_alloc (payouts : List (String × Int)) (miners_pool : ℕ)
    (avg_scores : List (String × Int)) : List (String × Int) :=
  let miner_items := miner_items_of avg_scores
  let score_sum := score_sum_of avg_scores
  if miners_pool > 0 ∧ score_sum > 0 ∧ miner_items ≠ [] then
    let shares := shares_of miners_pool score_sum miner_items
    let payouts1 := payouts ++ miner_items.filterMap (fun p =>
      if miners_pool * p.2 / score_sum > 0 then
        some (p.1, ((miners_pool * p.2 / score_sum : ℕ) : Int))
      else none)
    let miner_alloc_total : ℕ := (miner_items.map (fun p => miners_pool * p.2 / score_sum)).sum
    let remaining : Int := (miners_pool : Int) - (miner_alloc_total : ℤ)
    if remaining > 0 then
      (((sortSharesDesc shares).take remaining.toNat).map (fun sh => sh.1)).foldl
        bumpOrAppend payouts1
    else payouts1
  else payouts

/-- The validator-pool block of `_compute_distribution` (source lines 186-200):
equal floor split plus a `+1` scan for the first `remainder` validators.
`validators[i % len(validators)]` is modelled with `getD`; the index is always
in range because `i % len < len`. -/
def validator_alloc (payouts : List (String × Int)) (validators_pool : ℕ)
    (validators : List String) : List (String × Int) :=
  if validators_pool > 0 ∧ validators ≠ [] then
    let each : ℕ := validators_pool / validators.length
    let remainder : ℕ := validators_pool - each * validators.length
    let payouts1 := payouts ++
      (if each > 0 then validators.map (fun acc => (acc, (each : Int))) else [])
    (List.range remainder).foldl
      (fun ps i => bumpFirst ps (validators.getD (i % validators.length) "")) payouts1
  else payouts

/-- `_compute_distribution(total, avg_scores, validators)` (source lines
132-204).  The four pool sizes `int(math.floor(0.20 * total))` etc. are
modelled as exact rational floors `total * p / 100`; `avg_scores.items()` is
the association list `avg_scores` in insertion order.  Returns the payout list
and the leftover `total - sum(amount for _, amount in payouts)`. -/
def compute_distribution (total : ℕ) (avg_scores : List (String × Int))
    (validators : List String) : List (String × Int) × Int :=
  let a_fixed : ℕ := total * 20 / 100
  let b_fixed : ℕ := total * 20 / 100
  let miners_pool : ℕ := total * 35 / 100
  let validators_pool : ℕ := total * 25 / 100
  let payouts0 : List (String × Int) :=
    (if a_fixed > 0 then [("0.0.5864744", (a_fixed : Int))] else []) ++
    (if b_fixed > 0 then [("0.0.6914866", (b_fixed : Int))] else [])
  let payouts1 := miner_alloc payouts0 miners_pool avg_scores
  let payouts2 := validator_alloc payouts1 validators_pool validators
  (payouts2, (total : Int) - totalAmount payouts2)

/-! ## Aggregator — `_aggregate_scores` (`backend/server.py`, lines 368-379) -/

/-- Python 3 `round()` to the nearest integer, ties to the even integer
(banker's rounding), on an exact rational. -/
def pyRound (q : ℚ) : ℤ :=
  let n := ⌊q⌋
  if q - n < 1/2 then n
  else if (1:ℚ)/2 < q - n then n + 1
  else if n % 2 = 0 then n else n + 1

/-- Wallet normalisation `str(p.get("walletId") or "unknown")` (source line
372): a missing or empty wallet id falls back to `"unknown"` (the absent /
`None` case is modelled by the empty string). -/
def normWallet (p : String × Int) : String := if p.1 = "" then "unknown" else p.1

/-- `by_wallet.setdefault(wallet, []).append(score)` (source line 374): append
`s` to the bucket of `w`, creating the bucket at the end on first sight (dict
insertion order). -/
def addScore : List (String × List Int) → String → Int → List (String × List Int)
  | [], w, s => [(w, [s])]
  | (k, v) :: rest, w, s =>
    if k = w then (k, v ++ [s]) :: rest else (k, v) :: addScore rest w s

/-- `_aggregate_scores(pairs)` (source lines 368-379), with each input pair
reduced to the fields the function reads: `(walletId, score)`; a pair whose
`score` field is missing contributes `int(None or 0) = 0` and is modelled by
an explicit 0.  Output: one `(walletId, avg)` row per distinct wallet, where
`avg = int(round(sum(scores) / max(1, len(scores))))` (float division and
`round` modelled exactly over the rationals). -/
def aggregate_scores (pairs : List (String × Int)) : List (String × Int) :=
  let by_wallet := pairs.foldl (fun acc p => addScore acc (normWallet p) p.2) []
  by_wallet.map (fun e =>
    (e.1, pyRound ((e.2.sum : ℚ) / ((max 1 e.2.length : ℕ) : ℚ))))

/-- Spec-side companion for claim C2, modelled from the spec's words: rounding
to the nearest integer with ties rounded half away from zero. -/
def roundHalfAwayFromZero (q : ℚ) : ℤ :=
  if q - ⌊q⌋ < 1/2 then ⌊q⌋
  else if (1:ℚ)/2 < q - ⌊q⌋ then ⌊q⌋ + 1
  else if 0 ≤ q then ⌊q⌋ + 1 else ⌊q⌋

/-! ## Scorer — `_openai_score_answer` and its `_numeric_heuristic` fallback
(`backend/server.py`, lines 185-365) -/

/-- `normalize_minus` (source lines 193-194 and 321-323): replace the Unicode
minus sign U+2212 by the ASCII hyphen. -/
def normalize_minus (s : String) : String :=
  String.mk (s.data.map (fun c => if c = '−' then '-' else c))

/-- Scanner state for `extract_ints`: outside any token, just after a `-` that
may open a negative number, or inside a digit run (sign flag and the digits
seen so far, reversed). -/
inductive ScanState where
  | idle
  | minus
  | num (neg : Bool) (revDigits : List Char)

/-- Build the matched token from the scanner state. -/
def intToken (neg : Bool) (revDigits : List Char) : String :=
  (if neg then "-" else "") ++ String.mk revDigits.reverse

/-- Left-to-right maximal-munch scan equivalent to `re.findall(r"-?\d+", s)`
over ASCII digits: a `-` opens a number only when a digit follows directly;
digit runs are taken maximally. -/
def scanIntsGo : ScanState → List Char → List String
  | .num neg ds, [] => [intToken neg ds]
  | _, [] => []
  | .idle, c :: cs =>
    if c.isDigit then scanIntsGo (.num false [c]) cs
    else if c = '-' then scanIntsGo .minus cs
    else scanIntsGo .idle cs
  | .minus, c :: cs =>
    if c.isDigit then scanIntsGo (.num true [c]) cs
    else if c = '-' then scanIntsGo .minus cs
    else scanIntsGo .idle cs
  | .num neg ds, c :: cs =>
    if c.isDigit then scanIntsGo (.num neg (c :: ds)) cs
    else intToken neg ds :: (if c = '-' then scanIntsGo .minus cs else scanIntsGo .idle cs)

/-- `extract_ints` (source lines 195-197 and 325-327):
`re.findall(r"-?\d+", normalize_minus(s))` as a list of token strings
(`\d` modelled as the ASCII digits, which covers every id and answer format
this system produces). -/
def extract_ints (s : String) : List String := scanIntsGo .idle (normalize_minus s).data

/-- `max(0, min(100, int(x)))` (source line 363). -/
def clamp0100 (n : Int) : Int := max 0 (min 100 n)

/-- `_numeric_heuristic(t, c)` (source lines 192-230).  The verbatim inline
copy of the same logic at source lines 319-362 (the `score_val is None`
fallback) is modelled by this same function.  The float ratio thresholds
`0.66` / `0.33` and `int(100 * overlap / total)` are modelled as exact
rational / integer arithmetic. -/
def numeric_heuristic (t c : String) : Int :=
  let t_nums := extract_ints t
  let c_nums := extract_ints c
  if t_nums ≠ [] then
    let matched : ℕ := (t_nums.filter (fun n => c_nums.contains n)).length
    let total : ℕ := t_nums.length
    if matched = total ∧ total > 0 then 100
    else if (matched : ℚ) / (total : ℚ) ≥ 66/100 then 75
    else if (matched : ℚ) / (total : ℚ) ≥ 33/100 then 40
    else if matched > 0 then 25
    else 0
  else
    let t_l := pyLower t
    let c_l := pyLower c
    if t_l ≠ "" ∧ (t_l = c_l ∨ containsSub t_l.data c_l.data ∨ containsSub c_l.data t_l.data)
    then 95
    else
      let overlap : ℕ := ((dedup (pyWords t_l)).filter (fun w => (pyWords c_l).contains w)).length
      let total : ℕ := dedup (pyWords t_l) |>.length
      let total : ℕ := if total = 0 then 1 else total
      max 0 (min 100 ((100 * overlap / total : ℕ) : Int))

/-- Outcome of the external OpenAI call inside `_openai_score_answer`
(source lines 187-319), modelled as a parameter:

* `noApiKey` — `OPENAI_API_KEY` is unset (source line 232);
* `raised` — the HTTP request raised (network error / timeout), landing in
  the outer `except Exception` (source lines 364-365);
* `httpError` — a response arrived with `resp.ok` false (source line 314);
* `scoreParsed n` — `resp.ok` and an integer `n` was recovered from the reply
  content (via the JSON `score` field or the first-integer regex,
  source lines 292-308, summarised by the recovered value);
* `unparsable` — `resp.ok` but no integer could be recovered. -/
inductive OracleOutcome where
  | noApiKey
  | raised
  | httpError
  | scoreParsed (n : Int)
  | unparsable

/-- `_openai_score_answer(question, truth, candidate)` (source lines 185-365)
as a function of the oracle-call outcome.  The `question` argument only enters
the prompt sent to the oracle and does not influence the returned value on any
modelled path, so it is omitted.  On `noApiKey` the source returns the
heuristic directly (line 233, before the final clamp); the `httpError` and
`unparsable` paths run the inline heuristic copy and clamp (line 363); a
raised request lands in the outer handler and returns 0 (lines 364-365). -/
def openai_score_answer (outcome : OracleOutcome) (truth candidate : String) : Int :=
  match outcome with
  | .raised => 0
  | .noApiKey => numeric_heuristic truth candidate
  | .scoreParsed n => clamp0100 n
  | .httpError => clamp0100 (numeric_heuristic truth candidate)
  | .unparsable => clamp0100 (numeric_heuristic truth candidate)

/-! ## JSON-like values and Python dicts

The registry records, decoded ledger messages and Fluence deploy responses
are Python dicts / lists / scalars produced by `json.loads`. -/

/-- JSON-like Python value.  Objects are insertion-ordered association lists
(Python 3.7+ dict semantics); numbers are integers (every number this code
compares or stores as an id is integral). -/
inductive Json where
  | null
  | bool (b : Bool)
  | num (n : Int)
  | str (s : String)
  | arr (xs : List Json)
  | obj (fields : List (String × Json))

/-- A Python dict: ordered `(key, value)` association list. -/
abbrev Obj := List (String × Json)

/-- `d.get(k)`: value at the first occurrence of `k`, `None` (= `none`) when
absent.  Keys of dicts built by `json.loads` are unique. -/
def jget (k : String) : Obj → Option Json
  | [] => none
  | (k', v) :: rest => if k' = k then some v else jget k rest

/-- `d[k] = v`: overwrite the value in place if the key exists (keeping its
position, Python 3.7+ dict semantics), else append the key at the end. -/
def jset (o : Obj) (k : String) (v : Json) : Obj :=
  match o with
  | [] => [(k, v)]
  | (k', v') :: rest => if k' = k then (k, v) :: rest else (k', v') :: jset rest k v

/-- `d.pop(k, None)`: remove the first occurrence of `k` (dict keys are
unique, so the first is the only one). -/
def jpop (o : Obj) (k : String) : Obj :=
  match o with
  | [] => []
  | (k', v') :: rest => if k' = k then rest else (k', v') :: jpop rest k

/-- Python truthiness of a JSON-like value. -/
def Json.truthy : Json → Bool
  | .null => false
  | .bool b => b
  | .num n => n != 0
  | .str s => s != ""
  | .arr xs => !xs.isEmpty
  | .obj fs => !fs.isEmpty

/-- Python `a or b` over possibly-absent values (`none` = Python `None`):
returns `a` when it is truthy, otherwise `b` (even when `b` is falsy). -/
def pyOrJ (a b : Option Json) : Option Json :=
  match a with
  | some v => if v.truthy then some v else b
  | none => b

/-- Python `a or b` over optional strings (the extraction helpers return
either `None` or a string): `a` when it is a non-empty string, else `b`. -/
def pyOrS (a b : Option String) : Option String :=
  match a with
  | some s => if s ≠ "" then some s else b
  | none => b

mutual
/-- Structural equality of JSON-like values, modelling Python `==` (used by
`in` on a set of ids). -/
def Json.beq : Json → Json → Bool
  | .null, .null => true
  | .bool a, .bool b => a == b
  | .num a, .num b => a == b
  | .str a, .str b => a == b
  | .arr xs, .arr ys => Json.beqList xs ys
  | .obj fs, .obj gs => Json.beqObj fs gs
  | _, _ => false
def Json.beqList : List Json → List Json → Bool
  | [], [] => true
  | x :: xs, y :: ys => Json.beq x y && Json.beqList xs ys
  | _, _ => false
def Json.beqObj : List (String × Json) → List (String × Json) → Bool
  | [], [] => true
  | (k, v) :: xs, (l, w) :: ys => k == l && Json.beq v w && Json.beqObj xs ys
  | _, _ => false
end

/-- Python `str(v)` for the scalar values that can occur as instance ids in
the registry (`True` / `False` follow Python's bool-as-int printing).  The
`repr` strings of lists and dicts are abstracted to `""`: a container value
never equals a trimmed, lowered instance-id needle, and the registry writes
only scalars into the id fields. -/
def Json.pyStr : Json → String
  | .null => "None"
  | .bool b => if b then "True" else "False"
  | .num n => toString n
  | .str s => s
  | .arr _ => ""
  | .obj _ => ""

/-- Model of `str(d.get(k) or "")`: the empty string for an absent or falsy
value, the Python string form otherwise. -/
def pyStrOrEmpty (v : Option Json) : String :=
  match v with
  | none => ""
  | some j => if j.truthy then j.pyStr else ""

/-! ## Submission parser — `_parse_messages_to_pairs` and its extraction
helpers (`backend/server.py`, lines 32-182) -/

/-- Inner loop of the field helpers: first key whose value is a string with
non-empty `strip()`, returned stripped. -/
def strFieldStripped (o : Obj) : List String → Option String
  | [] => none
  | k :: rest =>
    match jget k o with
    | some (.str s) => if pyStrip s ≠ "" then some (pyStrip s) else strFieldStripped o rest
    | _ => strFieldStripped o rest

/-- The `vmId`/`vm_id`/`id` fallback of `_extract_wallet_id` (source lines
54-58): `str(val)` for the first value that is a `str` or `int` (Python bools
are ints), with no stripping or emptiness check. -/
def walletVmFallback (o : Obj) : List String → Option String
  | [] => none
  | k :: rest =>
    match jget k o with
    | some (.str s) => some s
    | some (.num n) => some (toString n)
    | some (.bool b) => some (if b then "True" else "False")
    | _ => walletVmFallback o rest

/-- `_extract_wallet_id(obj)` (source lines 41-59). -/
def extract_wallet_id (o : Obj) : Option String :=
  match strFieldStripped o
      ["walletId", "wallet_id", "wallet", "walletAddress", "address",
       "minerAddress", "miner_address"] with
  | some w => some w
  | none =>
    match jget "validator" o with
    | some (.obj vo) =>
      match strFieldStripped vo ["walletId", "wallet", "address"] with
      | some w => some w
      | none => walletVmFallback o ["vmId", "vm_id", "id"]
    | _ => walletVmFallback o ["vmId", "vm_id", "id"]

/-- `_extract_question(obj)` (source lines 62-67). -/
def extract_question (o : Obj) : Option String :=
  strFieldStripped o ["question", "prompt", "input", "text", "message"]

/-- `_extract_truth(obj)` (source lines 70-75). -/
def extract_truth (o : Obj) : Option String :=
  strFieldStripped o ["truth", "groundTruth", "ground_truth", "answerKey", "gold"]

/-- The nested lookup `val.get("text") or val.get("message") or
val.get("answer") or val.get("output")` of `_extract_candidate`, returning the
stripped string when the chain lands on a string with non-empty `strip()`. -/
def nestedText (vo : Obj) : Option String :=
  match pyOrJ (jget "text" vo)
      (pyOrJ (jget "message" vo) (pyOrJ (jget "answer" vo) (jget "output" vo))) with
  | some (.str s) => if pyStrip s ≠ "" then some (pyStrip s) else none
  | _ => none

/-- Main key loop of `_extract_candidate(obj)` (source lines 80-88). -/
def extractCandidateKeys (o : Obj) : List String → Option String
  | [] => none
  | k :: rest =>
    match jget k o with
    | some (.str s) => if pyStrip s ≠ "" then some (pyStrip s) else extractCandidateKeys o rest
    | some (.obj vo) =>
      match nestedText vo with
      | some s => some s
      | none => extractCandidateKeys o rest
    | _ => extractCandidateKeys o rest

/-- `_extract_candidate(obj)` (source lines 78-97). -/
def extract_candidate (o : Obj) : Option String :=
  match extractCandidateKeys o ["answer", "response", "result", "output", "text", "message"] with
  | some c => some c
  | none =>
    match jget "validator" o with
    | some (.obj vo) =>
      match jget "response" vo with
      | some (.obj ro) => nestedText ro
      | _ => none
    | _ => none

/-- One raw mirror message handed to `_parse_messages_to_pairs`: the message
envelope `env` (a decoded topic message, normally a dict with a string field
`"message"`), and `decoded`, the outcome of the three-stage decode cascade the
source applies to that string payload (direct `json.loads`, largest balanced
brace substring, `ast.literal_eval`; source lines 114-134).  `decoded = none`
models all three stages failing; the text-level cascade itself runs on an
external wire format and is carried as this input. -/
structure RawMsg where
  env : Json
  decoded : Option Json

/-- A scoring pair `{walletId, question, truth, candidate}` (source line 164). -/
structure ScorePair where
  walletId : String
  question : String
  truth : String
  candidate : String
deriving DecidableEq

/-- Resolution of one message to a keyed object (source lines 112-147): take
the decode-cascade result when the envelope has a non-blank string payload;
fall back to the envelope itself when it already carries one of the expected
keys; skip (`none`) unless the result is a dict. -/
def resolve_parsed (m : RawMsg) : Option Obj :=
  let raw : Option Json := match m.env with | .obj fs => jget "message" fs | _ => none
  let parsed : Option Json :=
    match raw with
    | some (.str s) => if pyStrip s ≠ "" then m.decoded else none
    | _ => none
  let parsed : Option Json :=
    match parsed with
    | some p => some p
    | none =>
      match m.env with
      | .obj fs =>
        if ["question", "prompt", "truth", "answer", "walletId", "vms"].any
            (fun k => (jget k fs).isSome)
        then some m.env else none
      | _ => none
  match parsed with
  | some (.obj o) => some o
  | _ => none

/-- Per-VM extraction inside the batch (`vms`) branch (source lines 158-164). -/
def vmPair (o : Obj) (q t : Option String) (vm : Json) : Option ScorePair :=
  match vm with
  | .obj vo =>
    let wallet := pyOrS (extract_wallet_id vo) (extract_wallet_id o)
    let cand := pyOrS (extract_candidate vo) (extract_candidate o)
    match wallet, cand with
    | some w, some c =>
      if w ≠ "" ∧ c ≠ "" then some ⟨w, q.getD "", t.getD "", c⟩ else none
    | _, _ => none
  | _ => none

/-- `parsed.get("vms")` when `isinstance(vms, list)` (source lines 150-151):
`some` of the elements exactly when the key holds a list. -/
def vmsOf (o : Obj) : Option (List Json) :=
  match jget "vms" o with
  | some (.arr xs) => some xs
  | _ => none

/-- The single-answer emission of the message loop (source lines 168-180): one
pair exactly when both the extracted wallet id and candidate are truthy
(non-`None`, non-empty), with `q or ""` / `t or ""` for the context fields. -/
def singleEmit (o : Obj) (q t : Option String) : List ScorePair :=
  match extract_wallet_id o, extract_candidate o with
  | some w, some c =>
    if w ≠ "" ∧ c ≠ "" then [(⟨w, q.getD "", t.getD "", c⟩ : ScorePair)] else []
  | _, _ => []

/-- The message loop of `_parse_messages_to_pairs` (source lines 110-180) with
the rolling `last_question` / `last_truth` context as explicit state.  The
source updates the context from the freshly extracted values exactly when they
are present, which coincides with carrying `q` / `t` forward (both are `None`
or non-empty, never the empty string). -/
def parse_aux (lq lt : Option String) : List RawMsg → List ScorePair
  | [] => []
  | m :: rest =>
    match resolve_parsed m with
    | none => parse_aux lq lt rest
    | some o =>
      let q := pyOrS (extract_question o) lq
      let t := pyOrS (extract_truth o) lt
      match vmsOf o with
      | some vms => vms.filterMap (vmPair o q t) ++ parse_aux q t rest
      | none => singleEmit o q t ++ parse_aux q t rest

/-- `_parse_messages_to_pairs(messages)` (source lines 100-182). -/
def parse_messages_to_pairs (msgs : List RawMsg) : List ScorePair :=
  parse_aux none none msgs

/-! ## Allocation registry — `allocate_vm_to_miner`, `docker_stop` registry
update, `record_new_vms_as_inactive` (`backend/server.py`, lines 443-618 and
816-849).

The registry is the JSON file `vm_deployments.json`; every mutating call does
`load_deployments()` / mutate / `save_deployments()`.  The model threads the
loaded record list through the functions; `load_deployments` guarantees every
record carries a `"status"` key (defaulted to `"inactive"`).  The wall-clock
timestamps produced by `_utc_now_iso()` are passed in as `now`. -/

/-- `rec.get("status") == s` for a string literal `s`: true exactly when the
key holds that string (Python `==` between a string and any non-string value,
including `None`, is false). -/
def statusIs (rec : Obj) (s : String) : Bool :=
  match jget "status" rec with
  | some (.str v) => v == s
  | _ => false

/-- The record ids matcher of `docker_stop` (source lines 832-836):
`str(rec.get("vmId") or "").strip().lower() == needle` or the same for the
`"id"` field. -/
def matchesVmId (rec : Obj) (needle : String) : Bool :=
  pyLower (pyStrip (pyStrOrEmpty (jget "vmId" rec))) == needle ||
  pyLower (pyStrip (pyStrOrEmpty (jget "id" rec))) == needle

/-- The release mutation of one matched record (source lines 837-841):
`rec["status"] = "inactive"`, pop `minerAddress` / `instanceName` /
`assignedAt`, stamp `releasedAt` — regardless of the record's prior status. -/
def releaseRec (rec : Obj) (now : String) : Obj :=
  jset (jpop (jpop (jpop (jset rec "status" (.str "inactive"))
    "minerAddress") "instanceName") "assignedAt") "releasedAt" (.str now)

/-- The record scan of `docker_stop` (source lines 833-843): release the first
record matching `needle` and stop (`break`); report whether anything changed. -/
def releaseScan (needle now : String) : List Obj → List Obj × Bool
  | [] => ([], false)
  | rec :: rest =>
    if matchesVmId rec needle then (releaseRec rec now :: rest, true)
    else
      let r := releaseScan needle now rest
      (rec :: r.1, r.2)

/-- The registry update performed by `docker_stop` when the remote container
stop command exits 0 (source lines 828-845): compute the needle
`str(vm_id).strip().lower()`, release the first matching record.  The registry
file is rewritten only when the returned flag is true (`if changed:
save_deployments(...)`). -/
def release_update (deployments : List Obj) (vm_id now : String) : List Obj × Bool :=
  releaseScan (pyLower (pyStrip vm_id)) now deployments

/-- The assignment mutation of `allocate_vm_to_miner` (source lines 566-569
and 605-608): mark active and bind the miner, instance name and timestamp. -/
def assignRec (rec : Obj) (miner instName now : String) : Obj :=
  jset (jset (jset (jset rec "status" (.str "active"))
    "minerAddress" (.str miner)) "instanceName" (.str instName)) "assignedAt" (.str now)

/-- The reuse loop of `allocate_vm_to_miner` (source lines 564-571): assign
the first record with `status == "inactive"` in registry order and return the
updated registry and record; `none` when no record is inactive. -/
def tryReuse (miner instName now : String) : List Obj → Option (List Obj × Obj)
  | [] => none
  | rec :: rest =>
    if statusIs rec "inactive" then
      some (assignRec rec miner instName now :: rest, assignRec rec miner instName now)
    else
      match tryReuse miner instName now rest with
      | some (ds', a) => some (rec :: ds', a)
      | none => none

/-- The `add` helper of `_extract_vms_from_deploy_result` (source lines
516-522): take `rec.get("id") or rec.get("vmId") or rec.get("vm_id")` when
truthy, paired with `rec.get("name") or rec.get("vmName") or "default-vm"`. -/
def addExtracted (rec : Obj) : Option (Json × Json) :=
  match pyOrJ (jget "id" rec) (pyOrJ (jget "vmId" rec) (jget "vm_id" rec)) with
  | some v =>
    if v.truthy then
      some (v, (pyOrJ (jget "name" rec)
        (pyOrJ (jget "vmName" rec) (some (.str "default-vm")))).getD (.str "default-vm"))
    else none
  | none => none

/-- `_extract_vms_from_deploy_result(result)` (source lines 513-537): collect
`(vmId, vmName)` pairs from the common list containers in key order, then from
the dict itself; or from a top-level list. -/
def extract_vms_from_deploy_result (result : Json) : List (Json × Json) :=
  match result with
  | .obj fs =>
    (["vms", "instances", "deployment", "items", "data"].map (fun k =>
      match jget k fs with
      | some (.arr xs) =>
        xs.filterMap (fun x => match x with | .obj ro => addExtracted ro | _ => none)
      | _ => [])).flatten
    ++ (match addExtracted fs with | some p => [p] | none => [])
  | .arr xs => xs.filterMap (fun x => match x with | .obj ro => addExtracted ro | _ => none)
  | _ => []

/-- `record_new_vms_as_inactive(deploy_result, wallet_address)` (source lines
540-557) applied to the already-extracted pairs, with `wallet_address = None`
as in the allocate path (source line 598): append one inactive record per
extracted VM and return the new registry plus the created records.  The file
is saved only when `created` is non-empty, which the threaded state mirrors. -/
def recordNewVms (ds : List Obj) (extracted : List (Json × Json)) (now : String) :
    List Obj × List Obj :=
  let created : List Obj := extracted.map (fun e =>
    [("vmId", e.1), ("vmName", e.2), ("status", Json.str "inactive"),
     ("walletAddress", Json.null), ("createdAt", Json.str now)])
  (ds ++ created, created)

/-- `rec.get("vmId") in new_ids` (source line 604): membership by Python
equality; an absent key (`None`) never matches, since every collected id is
truthy. -/
def vmIdIn (v : Option Json) (ids : List Json) : Bool :=
  match v with
  | some j => ids.any (fun i => Json.beq j i)
  | none => false

/-- The post-deploy assignment loop of `allocate_vm_to_miner` (source lines
602-610): assign the first record that is one of the freshly created VMs and
still inactive. -/
def tryAssignNew (newIds : List Json) (miner instName now : String) :
    List Obj → Option (List Obj × Obj)
  | [] => none
  | rec :: rest =>
    if vmIdIn (jget "vmId" rec) newIds && statusIs rec "inactive" then
      some (assignRec rec miner instName now :: rest, assignRec rec miner instName now)
    else
      match tryAssignNew newIds miner instName now rest with
      | some (ds', a) => some (rec :: ds', a)
      | none => none

/-- `allocate_vm_to_miner(miner_address, instance_name, manager)` (source
lines 560-618).  `deploy_result` carries the outcome of the external
`manager.deploy_vm(request_body)` call: `none` models the call raising (the
exception would propagate out of `allocate_vm_to_miner`, modelled as
`.error ()`), `some dr` a returned response value.  Returns the final registry
and the assigned record (`none` exactly when the registry is empty and nothing
could be extracted, in which case the source returns `None`). -/
def allocate_vm_to_miner (ds : List Obj) (miner instName now : String)
    (deploy_result : Option Json) : Except Unit (List Obj × Option Obj) :=
  match tryReuse miner instName now ds with
  | some (ds', rec) => .ok (ds', some rec)
  | none =>
    match deploy_result with
    | none => .error ()
    | some dr =>
      let extracted := extract_vms_from_deploy_result dr
      let res := recordNewVms ds extracted now
      let newIds := res.2.map (fun r => (jget "vmId" r).getD Json.null)
      match tryAssignNew newIds miner instName now res.1 with
      | some (ds2, a) => .ok (ds2, some a)
      | none =>
        match res.1.getLast? with
        | some lastRec =>
          .ok (res.1.dropLast ++ [assignRec lastRec miner instName now],
               some (assignRec lastRec miner instName now))
        | none => .ok (res.1, none)

/-! ## Spec-side companion definitions

Independent formulations, written from the spec's words, used to state the
refinement claims about the distribution engine. -/

/-- Modelled from the spec: the fractional remainder of a participant's raw
share `pool * score / scoreSum` (raw share minus its floor). -/
def lrFrac (pool ssum s : ℕ) : ℚ :=
  (pool * s : ℚ) / (ssum : ℚ) - ((pool * s / ssum : ℕ) : ℚ)

/-- Modelled from the spec: the pool's rounding remainder, i.e. the units left
after flooring every raw share. -/
def lrRemaining (pool ssum : ℕ) (items : List (String × ℕ)) : ℕ :=
  pool - (items.map (fun p => pool * p.2 / ssum)).sum

/-- Modelled from the spec: the number of participants served before `w` in
the largest-remainder priority order — those with a strictly larger fractional
remainder, plus those with an equal remainder that appear earlier in encounter
order. -/
def lrPriorCount (pool ssum : ℕ) (items : List (String × ℕ)) (w : String) : ℕ :=
  let fw := lrFrac pool ssum ((items.lookup w).getD 0)
  (items.filter (fun e => fw < lrFrac pool ssum e.2)).length +
  ((items.take (items.findIdx (fun e => e.1 = w))).filter
    (fun e => lrFrac pool ssum e.2 = fw)).length

/-- Modelled from the spec: participant `w` receives one extra unit exactly
when fewer than `remaining` participants precede it in the priority order. -/
def lrGetsExtra (pool ssum : ℕ) (items : List (String × ℕ)) (w : String) : Bool :=
  lrPriorCount pool ssum items w < lrRemaining pool ssum items

/-! # Theorems -/

/-! ## Bookkeeping lemmas for payout lists -/

theorem totalAmount_nil : totalAmount [] = 0 := rfl

theorem totalAmount_cons (e : String × Int) (l : List (String × Int)) :
    totalAmount (e :: l) = e.2 + totalAmount l := by
  simp [totalAmount]

theorem totalAmount_append (l₁ l₂ : List (String × Int)) :
    totalAmount (l₁ ++ l₂) = totalAmount l₁ + totalAmount l₂ := by
  simp [totalAmount]

theorem totalAmount_bumpFirst_le (l : List (String × Int)) (w : String) :
    totalAmount (bumpFirst l w) ≤ totalAmount l + 1 := by
  induction l with
  | nil => simp [bumpFirst, totalAmount]
  | cons e rest ih =>
    obtain ⟨k, v⟩ := e
    by_cases h : k = w
    · simp [bumpFirst, h, totalAmount_cons]
      omega
    · simp [bumpFirst, h, totalAmount_cons]
      omega

theorem totalAmount_bumpOrAppend (l : List (String × Int)) (w : String) :
    totalAmount (bumpOrAppend l w) = totalAmount l + 1 := by
  induction l with
  | nil => simp [bumpOrAppend, totalAmount]
  | cons e rest ih =>
    obtain ⟨k, v⟩ := e
    by_cases h : k = w
    · simp [bumpOrAppend, h, totalAmount_cons]
      omega
    · simp [bumpOrAppend, h, totalAmount_cons]
      omega

theorem totalAmount_foldl_bumpOrAppend (ws : List String) :
    ∀ l : List (String × Int),
      totalAmount (ws.foldl bumpOrAppend l) = totalAmount l + ws.length := by
  induction ws with
  | nil => intro l; simp
  | cons w ws ih =>
    intro l
    simp only [List.foldl_cons, ih, totalAmount_bumpOrAppend, List.length_cons]
    omega

theorem totalAmount_foldl_bumpFirst_le {α : Type} (f : α → String) (idxs : List α) :
    ∀ l : List (String × Int),
      totalAmount (idxs.foldl (fun ps i => bumpFirst ps (f i)) l) ≤
        totalAmount l + idxs.length := by
  induction idxs with
  | nil => intro l; simp
  | cons i idxs ih =>
    intro l
    simp only [List.foldl_cons, List.length_cons]
    calc totalAmount (idxs.foldl (fun ps i => bumpFirst ps (f i)) (bumpFirst l (f i)))
        ≤ totalAmount (bumpFirst l (f i)) + idxs.length := ih _
      _ ≤ totalAmount l + 1 + idxs.length := by
          have := totalAmount_bumpFirst_le l (f i); omega
      _ = totalAmount l + (idxs.length + 1) := by omega

theorem nonneg_bumpFirst (l : List (String × Int)) (w : String)
    (h : ∀ e ∈ l, 0 ≤ e.2) : ∀ e ∈ bumpFirst l w, 0 ≤ e.2 := by
  induction l with
  | nil => simp [bumpFirst]
  | cons hd rest ih =>
    obtain ⟨k, v⟩ := hd
    intro e he
    by_cases hk : k = w
    · simp [bumpFirst, hk] at he
      rcases he with he | he
      · subst he
        have := h (k, v) (by simp)
        simp at this ⊢
        omega
      · exact h e (by simp [he])
    · simp [bumpFirst, hk] at he
      rcases he with he | he
      · subst he; exact h (k, v) (by simp)
      · exact ih (fun e he' => h e (by simp [he'])) e he

theorem nonneg_bumpOrAppend (l : List (String × Int)) (w : String)
    (h : ∀ e ∈ l, 0 ≤ e.2) : ∀ e ∈ bumpOrAppend l w, 0 ≤ e.2 := by
  induction l with
  | nil =>
    intro e he
    simp [bumpOrAppend] at he
    subst he; simp
  | cons hd rest ih =>
    obtain ⟨k, v⟩ := hd
    intro e he
    by_cases hk : k = w
    · simp [bumpOrAppend, hk] at he
      rcases he with he | he
      · subst he
        have := h (k, v) (by simp)
        simp at this ⊢
        omega
      · exact h e (by simp [he])
    · simp [bumpOrAppend, hk] at he
      rcases he with he | he
      · subst he; exact h (k, v) (by simp)
      · exact ih (fun e he' => h e (by simp [he'])) e he

theorem nonneg_foldl_bumpOrAppend (ws : List String) :
    ∀ l : List (String × Int), (∀ e ∈ l, 0 ≤ e.2) →
      ∀ e ∈ ws.foldl bumpOrAppend l, 0 ≤ e.2 := by
  induction ws with
  | nil => intro l h; simpa using h
  | cons w ws ih =>
    intro l h
    simp only [List.foldl_cons]
    exact ih _ (nonneg_bumpOrAppend l w h)

theorem nonneg_foldl_bumpFirst {α : Type} (f : α → String) (idxs : List α) :
    ∀ l : List (String × Int), (∀ e ∈ l, 0 ≤ e.2) →
      ∀ e ∈ idxs.foldl (fun ps i => bumpFirst ps (f i)) l, 0 ≤ e.2 := by
  induction idxs with
  | nil => intro l h; simpa using h
  | cons i idxs ih =>
    intro l h
    simp only [List.foldl_cons]
    exact ih _ (nonneg_bumpFirst l (f i) h)

theorem nat_div_add_div_le (a b s : ℕ) : a / s + b / s ≤ (a + b) / s := by
  rcases Nat.eq_zero_or_pos s with hs | hs
  · simp [hs]
  · rw [Nat.le_div_iff_mul_le hs, Nat.add_mul]
    have ha := Nat.div_mul_le_self a s
    have hb := Nat.div_mul_le_self b s
    omega

theorem sum_floor_shares_le (pool s0 : ℕ) (items : List (String × ℕ)) :
    (items.map (fun p => pool * p.2 / s0)).sum ≤ pool * (items.map (fun p => p.2)).sum / s0 := by
  induction items with
  | nil => simp
  | cons p rest ih =>
    simp only [List.map_cons, List.sum_cons]
    calc pool * p.2 / s0 + (rest.map (fun p => pool * p.2 / s0)).sum
        ≤ pool * p.2 / s0 + pool * (rest.map (fun p => p.2)).sum / s0 := by omega
      _ ≤ (pool * p.2 + pool * (rest.map (fun p => p.2)).sum) / s0 := nat_div_add_div_le _ _ _
      _ = pool * (p.2 + (rest.map (fun p => p.2)).sum) / s0 := by ring_nf

theorem totalAmount_filterMap_pos (f : (String × ℕ) → ℕ) (items : List (String × ℕ)) :
    totalAmount (items.filterMap (fun p =>
      if f p > 0 then some (p.1, ((f p : ℕ) : Int)) else none)) =
    ((items.map (fun p => f p)).sum : ℤ) := by
  induction items with
  | nil => simp [totalAmount]
  | cons p rest ih =>
    by_cases h : f p > 0
    · simp only [List.filterMap_cons, if_pos h, totalAmount_cons, List.map_cons,
        List.sum_cons, ih, Nat.cast_add]
    · have h0 : f p = 0 := by omega
      simp [List.filterMap_cons, h0, ih]

theorem nonneg_filterMap_pos (f : (String × ℕ) → ℕ) (items : List (String × ℕ)) :
    ∀ e ∈ items.filterMap (fun p =>
      if f p > 0 then some (p.1, ((f p : ℕ) : Int)) else none),
      0 ≤ e.2 := by
  intro e he
  simp only [List.mem_filterMap] at he
  obtain ⟨p, _, hp⟩ := he
  by_cases h : f p > 0
  · rw [if_pos h] at hp
    cases hp
    exact Int.natCast_nonneg _
  · rw [if_neg h] at hp
    cases hp

theorem totalAmount_miner_alloc_le (P : List (String × Int)) (pool : ℕ)
    (avg : List (String × Int)) :
    totalAmount (miner_alloc P pool avg) ≤ totalAmount P + pool := by
  simp only [miner_alloc]
  split
  · next hcond =>
    obtain ⟨hpool, hsum, -⟩ := hcond
    have hB : ((miner_items_of avg).map (fun p => pool * p.2 / score_sum_of avg)).sum ≤ pool := by
      have h1 := sum_floor_shares_le pool (score_sum_of avg) (miner_items_of avg)
      have h2 : ((miner_items_of avg).map (fun p => p.2)).sum = score_sum_of avg := rfl
      rw [h2, Nat.mul_div_cancel _ hsum] at h1
      exact h1
    split
    · next hrem =>
      rw [totalAmount_foldl_bumpOrAppend, totalAmount_append,
        totalAmount_filterMap_pos (fun p => pool * p.2 / score_sum_of avg)]
      have hlen : ((((sortSharesDesc (shares_of pool (score_sum_of avg)
            (miner_items_of avg))).take
            (((pool : Int) -
              (((miner_items_of avg).map (fun p => pool * p.2 / score_sum_of avg)).sum : ℤ)).toNat)).map
            (fun sh => sh.1)).length) ≤
          (((pool : Int) -
            (((miner_items_of avg).map (fun p => pool * p.2 / score_sum_of avg)).sum : ℤ)).toNat) := by
        rw [List.length_map, List.length_take]
        exact Nat.min_le_left _ _
      have ht := Int.toNat_of_nonneg (le_of_lt hrem)
      omega
    · next hrem =>
      rw [totalAmount_append, totalAmount_filterMap_pos (fun p => pool * p.2 / score_sum_of avg)]
      omega
  · next hcond =>
    omega

theorem nonneg_miner_alloc (P : List (String × Int)) (pool : ℕ)
    (avg : List (String × Int)) (h : ∀ e ∈ P, 0 ≤ e.2) :
    ∀ e ∈ miner_alloc P pool avg, 0 ≤ e.2 := by
  simp only [miner_alloc]
  split
  · have h1 : ∀ e ∈ P ++ (miner_items_of avg).filterMap (fun p =>
        if pool * p.2 / score_sum_of avg > 0 then
          some (p.1, ((pool * p.2 / score_sum_of avg : ℕ) : Int)) else none), 0 ≤ e.2 := by
      intro e he
      rcases List.mem_append.mp he with he | he
      · exact h e he
      · exact nonneg_filterMap_pos (fun p => pool * p.2 / score_sum_of avg) _ e he
    split
    · exact nonneg_foldl_bumpOrAppend _ _ h1
    · exact h1
  · exact h

theorem totalAmount_map_const (vs : List String) (c : Int) :
    totalAmount (vs.map (fun a => (a, c))) = vs.length * c := by
  induction vs with
  | nil => simp [totalAmount]
  | cons v vs ih =>
    rw [List.map_cons, totalAmount_cons, ih, List.length_cons]
    push_cast
    ring

theorem totalAmount_validator_alloc_le (P : List (String × Int)) (pool : ℕ)
    (vs : List String) :
    totalAmount (validator_alloc P pool vs) ≤ totalAmount P + pool := by
  simp only [validator_alloc]
  split
  · refine le_trans
      (totalAmount_foldl_bumpFirst_le (fun i => vs.getD (i % vs.length) "") _ _) ?_
    rw [totalAmount_append, List.length_range]
    have happ : totalAmount (if pool / vs.length > 0 then
        vs.map (fun acc => (acc, ((pool / vs.length : ℕ) : Int))) else []) ≤
        ((pool / vs.length * vs.length : ℕ) : ℤ) := by
      split
      · rw [totalAmount_map_const]
        exact le_of_eq (by push_cast; ring)
      · simpa [totalAmount] using Int.natCast_nonneg (pool / vs.length * vs.length)
    have hdm : pool / vs.length * vs.length ≤ pool := Nat.div_mul_le_self _ _
    generalize hM : pool / vs.length * vs.length = M at happ hdm ⊢
    omega
  · omega

theorem nonneg_validator_alloc (P : List (String × Int)) (pool : ℕ) (vs : List String)
    (h : ∀ e ∈ P, 0 ≤ e.2) : ∀ e ∈ validator_alloc P pool vs, 0 ≤ e.2 := by
  simp only [validator_alloc]
  split
  · apply nonneg_foldl_bumpFirst
    intro e he
    rcases List.mem_append.mp he with he | he
    · exact h e he
    · revert he
      split
      · intro he
        obtain ⟨a, -, rfl⟩ := List.mem_map.mp he
        exact Int.natCast_nonneg _
      · intro he
        cases he
  · exact h

/-- Claim C1: for every non-negative integer total, every score map, and every
validator list, `_compute_distribution` returns a payout plan whose amounts
sum with the leftover to exactly the total, with leftover non-negative and
every individual payout amount non-negative. -/
theorem claim_C1_conservation (total : ℕ) (avg_scores : List (String × Int))
    (validators : List String) :
    totalAmount (compute_distribution total avg_scores validators).1 +
        (compute_distribution total avg_scores validators).2 = (total : ℤ) ∧
    0 ≤ (compute_distribution total avg_scores validators).2 ∧
    ∀ e ∈ (compute_distribution total avg_scores validators).1, 0 ≤ e.2 := by
  refine ⟨?_, ?_, ?_⟩
  · simp only [compute_distribution]
    ring
  · simp only [compute_distribution]
    have h0 : totalAmount
        ((if total * 20 / 100 > 0 then [("0.0.5864744", ((total * 20 / 100 : ℕ) : Int))] else []) ++
         (if total * 20 / 100 > 0 then [("0.0.6914866", ((total * 20 / 100 : ℕ) : Int))] else [])) ≤
        ((total * 20 / 100 : ℕ) : ℤ) + ((total * 20 / 100 : ℕ) : ℤ) := by
      rw [totalAmount_append]
      have hone : ∀ nm : String, totalAmount
          (if total * 20 / 100 > 0 then [(nm, ((total * 20 / 100 : ℕ) : Int))] else []) ≤
          ((total * 20 / 100 : ℕ) : ℤ) := by
        intro nm
        split
        · simp [totalAmount]
        · simpa [totalAmount] using Int.natCast_nonneg (total * 20 / 100)
      have := hone "0.0.5864744"
      have := hone "0.0.6914866"
      omega
    have h1 := totalAmount_miner_alloc_le
      ((if total * 20 / 100 > 0 then [("0.0.5864744", ((total * 20 / 100 : ℕ) : Int))] else []) ++
       (if total * 20 / 100 > 0 then [("0.0.6914866", ((total * 20 / 100 : ℕ) : Int))] else []))
      (total * 35 / 100) avg_scores
    have h2 := totalAmount_validator_alloc_le
      (miner_alloc
        ((if total * 20 / 100 > 0 then [("0.0.5864744", ((total * 20 / 100 : ℕ) : Int))] else []) ++
         (if total * 20 / 100 > 0 then [("0.0.6914866", ((total * 20 / 100 : ℕ) : Int))] else []))
        (total * 35 / 100) avg_scores)
      (total * 25 / 100) validators
    have hsum : total * 20 / 100 + total * 20 / 100 + total * 35 / 100 + total * 25 / 100 ≤ total := by
      have ha := Nat.div_mul_le_self (total * 20) 100
      have hb := Nat.div_mul_le_self (total * 35) 100
      have hc := Nat.div_mul_le_self (total * 25) 100
      omega
    generalize hA : total * 20 / 100 = A at h0 h1 h2 hsum ⊢
    generalize hB : total * 35 / 100 = B at h0 h1 h2 hsum ⊢
    generalize hC : total * 25 / 100 = C at h0 h1 h2 hsum ⊢
    omega
  · simp only [compute_distribution]
    refine nonneg_validator_alloc _ _ _ (nonneg_miner_alloc _ _ _ ?_)
    intro e he
    rcases List.mem_append.mp he with he | he <;>
    · revert he
      split
      · intro he
        rw [List.mem_singleton] at he
        subst he
        exact Int.natCast_nonneg _
      · intro he
        cases he

theorem amountOf_nil (w : String) : amountOf w [] = 0 := rfl

theorem amountOf_cons (w : String) (e : String × Int) (l : List (String × Int)) :
    amountOf w (e :: l) = (if e.1 = w then e.2 else 0) + amountOf w l := by
  by_cases h : e.1 = w <;> simp [amountOf, List.filter_cons, h]

theorem amountOf_append (w : String) (l₁ l₂ : List (String × Int)) :
    amountOf w (l₁ ++ l₂) = amountOf w l₁ + amountOf w l₂ := by
  simp [amountOf, List.filter_append]

theorem amountOf_eq_zero_of_not_mem (w : String) (l : List (String × Int))
    (h : w ∉ l.map Prod.fst) : amountOf w l = 0 := by
  induction l with
  | nil => rfl
  | cons e rest ih =>
    rw [amountOf_cons]
    have h1 : e.1 ≠ w := by
      intro he
      exact h (by simp [he.symm])
    rw [if_neg h1, ih (fun hm => h (by simp [hm]))]
    ring

theorem amountOf_bumpOrAppend (w v : String) (l : List (String × Int)) :
    amountOf w (bumpOrAppend l v) = amountOf w l + (if v = w then 1 else 0) := by
  induction l with
  | nil =>
    by_cases h : v = w <;> (simp [bumpOrAppend, amountOf_cons, h]; try ring)
  | cons e rest ih =>
    obtain ⟨k, x⟩ := e
    by_cases hk : k = v
    · subst hk
      rw [bumpOrAppend, if_pos rfl, amountOf_cons, amountOf_cons]
      by_cases hw : k = w <;> (simp [hw]; try ring)
    · rw [bumpOrAppend, if_neg hk, amountOf_cons, amountOf_cons, ih]
      ring

theorem amountOf_foldl_bumpOrAppend (w : String) (ws : List String) :
    ∀ l : List (String × Int),
      amountOf w (ws.foldl bumpOrAppend l) =
        amountOf w l + ((ws.filter (fun v => v = w)).length : ℤ) := by
  induction ws with
  | nil => intro l; simp
  | cons v ws ih =>
    intro l
    rw [List.foldl_cons, ih, amountOf_bumpOrAppend, List.filter_cons]
    by_cases h : v = w
    · simp [h]
      ring
    · simp [h]

theorem keys_bumpFirst (l : List (String × Int)) (v : String) :
    (bumpFirst l v).map Prod.fst = l.map Prod.fst := by
  induction l with
  | nil => rfl
  | cons e rest ih =>
    obtain ⟨k, x⟩ := e
    by_cases hk : k = v <;> simp [bumpFirst, hk, ih]

theorem amountOf_bumpFirst (w v : String) (l : List (String × Int)) :
    amountOf w (bumpFirst l v) =
      amountOf w l + (if v = w ∧ v ∈ l.map Prod.fst then 1 else 0) := by
  induction l with
  | nil => simp [bumpFirst]
  | cons e rest ih =>
    obtain ⟨k, x⟩ := e
    by_cases hk : k = v
    · subst hk
      rw [bumpFirst, if_pos rfl, amountOf_cons, amountOf_cons]
      by_cases hw : k = w
      · rw [if_pos hw, if_pos hw, if_pos ⟨hw, by simp⟩]
        ring
      · simp [hw]
    · rw [bumpFirst, if_neg hk, amountOf_cons, amountOf_cons, ih]
      have : (v = w ∧ v ∈ ((k, x) :: rest).map Prod.fst) ↔ (v = w ∧ v ∈ rest.map Prod.fst) := by
        constructor
        · rintro ⟨h1, h2⟩
          refine ⟨h1, ?_⟩
          simp at h2
          rcases h2 with h2 | h2
          · exact absurd h2.symm hk
          · simpa using h2
        · rintro ⟨h1, h2⟩
          exact ⟨h1, by simp [h2]⟩
      rw [if_congr this rfl rfl]
      ring

theorem amountOf_foldl_bumpFirst {α : Type} (w : String) (f : α → String) (idxs : List α) :
    ∀ l : List (String × Int), (∀ i ∈ idxs, f i ∈ l.map Prod.fst) →
      amountOf w (idxs.foldl (fun ps i => bumpFirst ps (f i)) l) =
        amountOf w l + ((idxs.filter (fun i => f i = w)).length : ℤ) := by
  induction idxs with
  | nil => intro l _; simp
  | cons i idxs ih =>
    intro l hmem
    rw [List.foldl_cons, ih _ (fun j hj => by
      rw [keys_bumpFirst]
      exact hmem j (by simp [hj])), amountOf_bumpFirst, List.filter_cons]
    have hi : f i ∈ l.map Prod.fst := hmem i (by simp)
    by_cases h : f i = w
    · rw [if_pos ⟨h, hi⟩]
      simp [h]
      ring
    · rw [if_neg (fun hc => h hc.1)]
      simp [h]

theorem rem_eq_mod (p n : ℕ) : p - p / n * n = p % n := by
  have h := Nat.div_add_mod p n
  have h2 : p / n * n = n * (p / n) := Nat.mul_comm _ _
  omega

theorem amountOf_map_const_of_mem (vs : List String) (c : Int) (v : String)
    (hnd : vs.Nodup) (hv : v ∈ vs) :
    amountOf v (vs.map (fun a => (a, c))) = c := by
  induction vs with
  | nil => cases hv
  | cons u vs ih =>
    rw [List.map_cons, amountOf_cons]
    rcases List.mem_cons.mp hv with rfl | hv'
    · rw [if_pos rfl, amountOf_eq_zero_of_not_mem]
      · ring
      · have := (List.nodup_cons.mp hnd).1
        simpa using this
    · have hu : u ≠ v := by
        intro h
        subst h
        exact (List.nodup_cons.mp hnd).1 hv'
      rw [if_neg hu, ih (List.nodup_cons.mp hnd).2 hv']
      ring

theorem range_filter_eq_length (n m : ℕ) :
    ((List.range n).filter (fun i => i = m)).length = if m < n then 1 else 0 := by
  induction n with
  | zero => simp
  | succ n ih =>
    rw [List.range_succ, List.filter_append, List.length_append, ih]
    by_cases h : m < n
    · rw [if_pos h, if_pos (show m < n + 1 by omega)]
      have hne : ¬(n = m) := by omega
      simp [hne]
    · by_cases h2 : m < n + 1
      · have heq : n = m := by omega
        rw [if_neg h, if_pos h2]
        simp [heq]
      · have hne : ¬(n = m) := by omega
        rw [if_neg h, if_neg h2]
        simp [hne]

theorem getD_mem_of_lt (vs : List String) (n : ℕ) (h : n < vs.length) :
    vs.getD n "" ∈ vs := by
  rw [List.getD_eq_getElem _ _ h]
  exact List.getElem_mem h

theorem getD_eq_iff_indexOf (vs : List String) (v : String) (hnd : vs.Nodup)
    (hv : v ∈ vs) (i : ℕ) (hi : i < vs.length) :
    vs.getD i "" = v ↔ i = vs.indexOf v := by
  have hidx : vs.indexOf v < vs.length := List.indexOf_lt_length.mpr hv
  rw [List.getD_eq_getElem _ _ hi]
  constructor
  · intro h
    have h2 : vs[i] = vs[vs.indexOf v] := by
      rw [List.getElem_indexOf hidx, h]
    exact (hnd.getElem_inj_iff).mp h2
  · intro h
    subst h
    exact List.getElem_indexOf hidx

theorem amountOf_validator_alloc (P : List (String × Int)) (pool : ℕ) (vs : List String)
    (hnd : vs.Nodup) (heach : 0 < pool / vs.length) (v : String) (hv : v ∈ vs) :
    amountOf v (validator_alloc P pool vs) =
      amountOf v P + ((pool / vs.length : ℕ) : ℤ) +
        (if vs.indexOf v < pool % vs.length then 1 else 0) := by
  have hlen : 0 < vs.length := List.length_pos.mpr (List.ne_nil_of_mem hv)
  have hpool : 0 < pool := by
    by_contra h
    have h0 : pool = 0 := by omega
    rw [h0] at heach
    simp at heach
  simp only [validator_alloc]
  rw [if_pos (show pool > 0 ∧ vs ≠ [] from ⟨hpool, List.ne_nil_of_mem hv⟩)]
  rw [if_pos heach]
  rw [amountOf_foldl_bumpFirst v (fun i => vs.getD (i % vs.length) "") _ _ (by
    intro i _
    have himod : i % vs.length < vs.length := Nat.mod_lt _ hlen
    rw [List.map_append, List.map_map]
    refine List.mem_append.mpr (Or.inr ?_)
    exact List.mem_map.mpr ⟨vs.getD (i % vs.length) "", getD_mem_of_lt vs _ himod, rfl⟩)]
  rw [amountOf_append, amountOf_map_const_of_mem vs _ v hnd hv]
  have hrem : pool - pool / vs.length * vs.length = pool % vs.length := rem_eq_mod _ _
  rw [hrem]
  have hmodlt : pool % vs.length < vs.length := Nat.mod_lt _ hlen
  have hfc : (List.range (pool % vs.length)).filter
      (fun i => vs.getD (i % vs.length) "" = v) =
      (List.range (pool % vs.length)).filter (fun i => i = vs.indexOf v) := by
    apply List.filter_congr
    intro i hi
    rw [List.mem_range] at hi
    have hilt : i < vs.length := lt_trans hi hmodlt
    apply decide_eq_decide.mpr
    rw [Nat.mod_eq_of_lt hilt]
    exact getD_eq_iff_indexOf vs v hnd hv i hilt
  rw [hfc, range_filter_eq_length]
  split
  · ring
  · ring

/-- Claim C5 counterexample: at `total = 8` with no scores and validators
`["V1", "V2", "V3"]` the validator pool is `floor(0.25 * 8) = 2`, so the floor
share is `2 / 3 = 0` and the division remainder is `2`.  The claim prescribes
adding the remainder one unit at a time to validators starting from the first,
giving the first validator `2 / 3 + 1 = 1`; the code's remainder loop only
increments an existing payout entry, and with a zero floor share no validator
entry was ever appended, so the units are silently dropped into the leftover
and `V1` receives nothing.  (At `total = 8` the IEEE pools
`floor(0.20 * 8) = 1`, `floor(0.35 * 8) = 2`, `floor(0.25 * 8) = 2` coincide
with the exact rational floors used by the model.) -/
theorem claim_C5_counterexample :
    (8 * 25 / 100 : ℕ) = 2 ∧ (2 / 3 : ℕ) + 1 = 1 ∧ 2 % 3 = 2 ∧
    amountOf "V1" (compute_distribution 8 [] ["V1", "V2", "V3"]).1 = 0 ∧
    (compute_distribution 8 [] ["V1", "V2", "V3"]).1 =
      [("0.0.5864744", 1), ("0.0.6914866", 1)] := by
  refine ⟨rfl, rfl, rfl, ?_, ?_⟩ <;> decide

/-- Claim C5, amended: for a duplicate-free non-empty validator list whose
floor share `pool / len` is at least one unit, every validator's
validator-pool contribution is the floor share plus one extra unit exactly
when its position in list order is below the division remainder; consequently
any two validators' contributions differ by at most 1.  (When the floor share
is zero the remainder units are dropped — see the counterexample; the
contribution is measured against the payouts accumulated before the validator
block, so it is exactly what the validator block adds for that account.) -/
theorem claim_C5_amended (P : List (String × Int)) (pool : ℕ) (vs : List String)
    (hnd : vs.Nodup) (heach : 0 < pool / vs.length) :
    (∀ v ∈ vs, amountOf v (validator_alloc P pool vs) - amountOf v P =
      ((pool / vs.length : ℕ) : ℤ) +
        (if vs.indexOf v < pool % vs.length then 1 else 0)) ∧
    (∀ u ∈ vs, ∀ v ∈ vs,
      |(amountOf u (validator_alloc P pool vs) - amountOf u P) -
        (amountOf v (validator_alloc P pool vs) - amountOf v P)| ≤ 1) := by
  have hform : ∀ v ∈ vs, amountOf v (validator_alloc P pool vs) - amountOf v P =
      ((pool / vs.length : ℕ) : ℤ) +
        (if vs.indexOf v < pool % vs.length then 1 else 0) := by
    intro v hv
    rw [amountOf_validator_alloc P pool vs hnd heach v hv]
    ring
  refine ⟨hform, ?_⟩
  intro u hu v hv
  rw [hform u hu, hform v hv]
  rw [abs_le]
  constructor <;> (split <;> split <;> omega)

/-- Witness for the amended claim C5: `pool = 5`, validators
`["V1", "V2", "V3"]`: floor share `1`, remainder `2`; the first validator
receives `2` and the last receives `1`. -/
theorem claim_C5_amended_witness :
    ["V1", "V2", "V3"].Nodup ∧ 0 < 5 / ["V1", "V2", "V3"].length ∧
    amountOf "V1" (validator_alloc [] 5 ["V1", "V2", "V3"]) = 2 ∧
    amountOf "V3" (validator_alloc [] 5 ["V1", "V2", "V3"]) = 1 := by
  have h := (claim_C5_amended [] 5 ["V1", "V2", "V3"] (by decide) (by decide)).1
  have h1 := h "V1" (by decide)
  have h3 := h "V3" (by decide)
  rw [if_pos (by decide)] at h1
  rw [if_neg (by decide)] at h3
  rw [amountOf_nil] at h1 h3
  have hlen : (["V1", "V2", "V3"] : List String).length = 3 := rfl
  rw [hlen] at h1 h3
  refine ⟨by decide, by decide, ?_, ?_⟩
  · omega
  · omega

theorem takeWhile_append_of_neg {α : Type} (p : α → Bool) (x : α) (l1 l2 : List α)
    (hx : p x = false) :
    (l1 ++ x :: l2).takeWhile p = l1.takeWhile p := by
  induction l1 with
  | nil => simp [List.takeWhile_cons, hx]
  | cons a l1 ih =>
    by_cases ha : p a
    · simp [List.takeWhile_cons, ha, ih]
    · simp at ha
      simp [List.takeWhile_cons, ha]

theorem dropWhile_append_of_neg {α : Type} (p : α → Bool) (x : α) (l1 l2 : List α)
    (hx : p x = false) :
    (l1 ++ x :: l2).dropWhile p = l1.dropWhile p ++ x :: l2 := by
  induction l1 with
  | nil => simp [List.dropWhile_cons, hx]
  | cons a l1 ih =>
    by_cases ha : p a
    · simp [List.dropWhile_cons, ha, ih]
    · simp at ha
      simp [List.dropWhile_cons, ha]

theorem takeWhile_append_of_all {α : Type} (p : α → Bool) (x : α) (l1 l2 : List α)
    (hall : ∀ a ∈ l1, p a = true) (hx : p x = true) :
    (l1 ++ x :: l2).takeWhile p = l1 ++ x :: l2.takeWhile p := by
  induction l1 with
  | nil => simp [List.takeWhile_cons, hx]
  | cons a l1 ih =>
    have ha : p a = true := hall a (by simp)
    simp only [List.cons_append, List.takeWhile_cons, ha, if_true]
    rw [ih (fun b hb => hall b (by simp [hb]))]

theorem dropWhile_append_of_all {α : Type} (p : α → Bool) (x : α) (l1 l2 : List α)
    (hall : ∀ a ∈ l1, p a = true) (hx : p x = true) :
    (l1 ++ x :: l2).dropWhile p = l2.dropWhile p := by
  induction l1 with
  | nil => simp [List.dropWhile_cons, hx]
  | cons a l1 ih =>
    have ha : p a = true := hall a (by simp)
    simp only [List.cons_append, List.dropWhile_cons, ha, if_true]
    exact ih (fun b hb => hall b (by simp [hb]))

theorem insertShareDesc_eq (x : String × ℕ × ℚ) (s : List (String × ℕ × ℚ)) :
    insertShareDesc x s =
      s.takeWhile (fun y => x.2.2 < y.2.2) ++ x :: s.dropWhile (fun y => x.2.2 < y.2.2) := by
  induction s with
  | nil => simp [insertShareDesc]
  | cons y ys ih =>
    by_cases h : x.2.2 < y.2.2
    · simp [insertShareDesc, h, List.takeWhile_cons, List.dropWhile_cons, ih]
    · simp [insertShareDesc, h, List.takeWhile_cons, List.dropWhile_cons]

theorem perm_insertShareDesc (x : String × ℕ × ℚ) (s : List (String × ℕ × ℚ)) :
    List.Perm (insertShareDesc x s) (x :: s) := by
  induction s with
  | nil => exact List.Perm.refl _
  | cons y ys ih =>
    by_cases h : x.2.2 < y.2.2
    · rw [insertShareDesc, if_pos h]
      exact (ih.cons y).trans (List.Perm.swap x y ys)
    · rw [insertShareDesc, if_neg h]

theorem perm_sortSharesDesc (l : List (String × ℕ × ℚ)) :
    List.Perm (sortSharesDesc l) l := by
  induction l with
  | nil => exact List.Perm.refl _
  | cons x xs ih =>
    exact (perm_insertShareDesc x (sortSharesDesc xs)).trans (ih.cons x)

theorem sorted_insertShareDesc (x : String × ℕ × ℚ) (s : List (String × ℕ × ℚ))
    (hs : s.Pairwise (fun a b => b.2.2 ≤ a.2.2)) :
    (insertShareDesc x s).Pairwise (fun a b => b.2.2 ≤ a.2.2) := by
  induction s with
  | nil => simp [insertShareDesc]
  | cons y ys ih =>
    rcases List.pairwise_cons.mp hs with ⟨hy, hys⟩
    by_cases h : x.2.2 < y.2.2
    · rw [insertShareDesc, if_pos h]
      rw [List.pairwise_cons]
      refine ⟨?_, ih hys⟩
      intro b hb
      rcases List.mem_cons.mp ((perm_insertShareDesc x ys).mem_iff.mp hb) with h1 | h1
      · rw [h1]
        exact le_of_lt h
      · exact hy b h1
    · rw [insertShareDesc, if_neg h]
      rw [List.pairwise_cons]
      refine ⟨?_, hs⟩
      intro b hb
      rcases List.mem_cons.mp hb with rfl | hb'
      · exact not_lt.mp h
      · exact le_trans (hy b hb') (not_lt.mp h)

theorem sorted_sortSharesDesc (l : List (String × ℕ × ℚ)) :
    (sortSharesDesc l).Pairwise (fun a b => b.2.2 ≤ a.2.2) := by
  induction l with
  | nil => simp [sortSharesDesc]
  | cons x xs ih => exact sorted_insertShareDesc x (sortSharesDesc xs) ih

theorem takeWhile_eq_filter_of_sorted (c : ℚ) (s : List (String × ℕ × ℚ))
    (hs : s.Pairwise (fun a b => b.2.2 ≤ a.2.2)) :
    s.takeWhile (fun y => c < y.2.2) = s.filter (fun y => c < y.2.2) := by
  induction s with
  | nil => rfl
  | cons y ys ih =>
    rcases List.pairwise_cons.mp hs with ⟨hy, hys⟩
    by_cases h : c < y.2.2
    · simp only [List.takeWhile_cons, List.filter_cons, decide_eq_true h, if_true, ih hys]
    · have hfil : ys.filter (fun y => decide (c < y.2.2)) = [] := by
        rw [List.filter_eq_nil_iff]
        intro b hb
        simp only [decide_eq_true_eq]
        exact not_lt.mpr (le_trans (hy b hb) (not_lt.mp h))
      simp only [List.takeWhile_cons, List.filter_cons, decide_eq_false (by exact h),
        if_false, hfil]
      simp [h]

theorem sortSharesDesc_split (x : String × ℕ × ℚ) :
    ∀ l1 l2 : List (String × ℕ × ℚ),
      ∃ s1 s2, sortSharesDesc (l1 ++ x :: l2) = s1 ++ x :: s2 ∧
        s1.length = ((l1 ++ x :: l2).filter (fun e => x.2.2 < e.2.2)).length +
                    (l1.filter (fun e => e.2.2 = x.2.2)).length := by
  intro l1
  induction l1 with
  | nil =>
    intro l2
    refine ⟨(sortSharesDesc l2).takeWhile (fun y => x.2.2 < y.2.2),
            (sortSharesDesc l2).dropWhile (fun y => x.2.2 < y.2.2), ?_, ?_⟩
    · rw [List.nil_append]
      rw [show sortSharesDesc (x :: l2) = insertShareDesc x (sortSharesDesc l2) from rfl]
      exact insertShareDesc_eq x (sortSharesDesc l2)
    · rw [takeWhile_eq_filter_of_sorted _ _ (sorted_sortSharesDesc l2)]
      rw [((perm_sortSharesDesc l2).filter (fun y => decide (x.2.2 < y.2.2))).length_eq]
      have hx : ¬(x.2.2 < x.2.2) := lt_irrefl _
      simp [List.filter_cons, hx]
  | cons y l1' ih =>
    intro l2
    obtain ⟨s1', s2', heq, hlen⟩ := ih l2
    have hsorted := sorted_sortSharesDesc (l1' ++ x :: l2)
    rw [heq] at hsorted
    have hstep : sortSharesDesc ((y :: l1') ++ x :: l2) =
        insertShareDesc y (s1' ++ x :: s2') := by
      rw [List.cons_append]
      rw [show sortSharesDesc (y :: (l1' ++ x :: l2)) =
        insertShareDesc y (sortSharesDesc (l1' ++ x :: l2)) from rfl]
      rw [heq]
    by_cases hxy : y.2.2 < x.2.2
    · have hall : ∀ a ∈ s1', (fun z => decide (y.2.2 < z.2.2)) a = true := by
        intro a ha
        have hax : x.2.2 ≤ a.2.2 :=
          (List.pairwise_append.mp hsorted).2.2 a ha x (by simp)
        simp only [decide_eq_true_eq]
        exact lt_of_lt_of_le hxy hax
      have hx : (fun z => decide (y.2.2 < z.2.2)) x = true := by
        simp only [decide_eq_true_eq]
        exact hxy
      refine ⟨s1', (s2'.takeWhile (fun z => y.2.2 < z.2.2)) ++
          y :: (s2'.dropWhile (fun z => y.2.2 < z.2.2)), ?_, ?_⟩
      · rw [hstep, insertShareDesc_eq]
        rw [takeWhile_append_of_all _ _ _ _ hall hx, dropWhile_append_of_all _ _ _ _ hall hx]
        simp
      · rw [hlen]
        have h1 : ¬(x.2.2 < y.2.2) := not_lt.mpr (le_of_lt hxy)
        have h2 : ¬(y.2.2 = x.2.2) := ne_of_lt hxy
        simp [List.filter_cons, h1, h2]
    · have hx : (fun z => decide (y.2.2 < z.2.2)) x = false := by
        simp only [decide_eq_false_iff_not]
        exact hxy
      refine ⟨(s1'.takeWhile (fun z => y.2.2 < z.2.2)) ++
          y :: (s1'.dropWhile (fun z => y.2.2 < z.2.2)), s2', ?_, ?_⟩
      · rw [hstep, insertShareDesc_eq]
        rw [takeWhile_append_of_neg (fun z => decide (y.2.2 < z.2.2)) x s1' s2' hx,
          dropWhile_append_of_neg (fun z => decide (y.2.2 < z.2.2)) x s1' s2' hx]
        simp
      · have hsum : (s1'.takeWhile (fun z => y.2.2 < z.2.2)).length +
            (s1'.dropWhile (fun z => y.2.2 < z.2.2)).length = s1'.length := by
          rw [← List.length_append, List.takeWhile_append_dropWhile]
        have hx2 : ¬(x.2.2 < x.2.2) := lt_irrefl _
        simp [List.filter_append, List.filter_cons, hx2] at hlen
        rcases lt_or_eq_of_le (not_lt.mp hxy) with h | h
        · have h2 : ¬(y.2.2 = x.2.2) := ne_of_gt h
          simp [List.filter_cons, List.filter_append, h, h2, hx2]
          omega
        · have h2 : y.2.2 = x.2.2 := h.symm
          have hpx : ¬(x.2.2 < y.2.2) := by
            rw [h2]
            exact lt_irrefl _
          rw [h2] at hsum ⊢
          simp [List.filter_cons, List.filter_append, hx2, hpx, h2]
          omega

theorem lookup_eq_of_nodup (l : List (String × ℕ)) (w : String) (n : ℕ)
    (hnd : (l.map Prod.fst).Nodup) (hm : (w, n) ∈ l) : l.lookup w = some n := by
  induction l with
  | nil => cases hm
  | cons p rest ih =>
    obtain ⟨k, v⟩ := p
    rcases List.mem_cons.mp hm with h | h
    · cases h
      simp [List.lookup]
    · have hk : k ≠ w := by
        intro hkw
        subst hkw
        have : k ∈ rest.map Prod.fst := List.mem_map.mpr ⟨(k, n), h, rfl⟩
        exact (List.nodup_cons.mp (by simpa using hnd)).1 this
      simp only [List.lookup]
      have hbeq : (w == k) = false := beq_eq_false_iff_ne.mpr (Ne.symm hk)
      rw [hbeq]
      rw [List.map_cons] at hnd
      exact ih (List.nodup_cons.mp hnd).2 h

theorem findIdx_split (l1 l2 : List (String × ℕ)) (w : String) (n : ℕ)
    (hnot : w ∉ l1.map Prod.fst) :
    (l1 ++ (w, n) :: l2).findIdx (fun e => e.1 = w) = l1.length := by
  induction l1 with
  | nil => simp [List.findIdx_cons]
  | cons a l1' ih =>
    have ha : ¬(a.1 = w) := fun h => hnot (by simp [h])
    rw [List.cons_append, List.findIdx_cons]
    simp only [decide_eq_false ha, cond_false]
    rw [ih (fun h => hnot (by simp [h]))]
    simp

theorem nodup_count_filter (l : List String) (w : String) (h : l.Nodup) :
    (l.filter (fun v => v = w)).length = if w ∈ l then 1 else 0 := by
  induction l with
  | nil => simp
  | cons u l' ih =>
    rcases List.nodup_cons.mp h with ⟨hu, hl'⟩
    by_cases huw : u = w
    · subst huw
      have hfil : l'.filter (fun v => v = u) = [] := by
        rw [List.filter_eq_nil_iff]
        intro b hb
        simp only [decide_eq_true_eq]
        intro hbu
        exact hu (hbu ▸ hb)
      simp [List.filter_cons, hfil]
    · simp only [List.filter_cons]
      rw [if_neg (by simp [huw])]
      rw [ih hl']
      have hiff : (w ∈ u :: l') ↔ (w ∈ l') := by
        simp [List.mem_cons, Ne.symm huw]
      rw [if_congr hiff rfl rfl]

theorem mem_take_keys_iff (x : String × ℕ × ℚ) (s1 s2 : List (String × ℕ × ℚ))
    (hnot : x.1 ∉ s1.map (fun e => e.1)) (r : ℕ) :
    x.1 ∈ (((s1 ++ x :: s2).take r).map (fun e => e.1)) ↔ s1.length < r := by
  induction s1 generalizing r with
  | nil =>
    cases r with
    | zero => simp
    | succ r => simp
  | cons a s1' ih =>
    have ha : x.1 ≠ a.1 := by
      intro h
      exact hnot (by simp [h])
    cases r with
    | zero => simp
    | succ r =>
      rw [List.cons_append, List.take_succ_cons, List.map_cons]
      simp only [List.mem_cons]
      constructor
      · intro hmem
        rcases hmem with h | h
        · exact absurd h ha
        · have := (ih (fun hm => hnot (by simp [hm])) r).mp h
          simp only [List.length_cons]
          omega
      · intro hlen
        right
        refine (ih (fun hm => hnot (by simp [hm])) r).mpr ?_
        simp only [List.length_cons] at hlen
        omega

theorem keys_filterMap_subset (f : (String × ℕ) → ℕ) (items : List (String × ℕ))
    (w : String)
    (hw : w ∈ (items.filterMap (fun p =>
      if f p > 0 then some (p.1, ((f p : ℕ) : Int)) else none)).map Prod.fst) :
    w ∈ items.map Prod.fst := by
  rcases List.mem_map.mp hw with ⟨e, he, rfl⟩
  rcases List.mem_filterMap.mp he with ⟨p, hp, hpe⟩
  by_cases h : f p > 0
  · rw [if_pos h] at hpe
    cases hpe
    exact List.mem_map.mpr ⟨p, hp, rfl⟩
  · rw [if_neg h] at hpe
    cases hpe

theorem amountOf_filterMap_first (f : (String × ℕ) → ℕ) (w : String) (n : ℕ)
    (items : List (String × ℕ)) (hnd : (items.map Prod.fst).Nodup)
    (hm : (w, n) ∈ items) :
    amountOf w (items.filterMap (fun p =>
      if f p > 0 then some (p.1, ((f p : ℕ) : Int)) else none)) = ((f (w, n) : ℕ) : ℤ) := by
  induction items with
  | nil => cases hm
  | cons p rest ih =>
    rw [List.map_cons] at hnd
    rcases List.nodup_cons.mp hnd with ⟨hp1, hrest⟩
    rcases List.mem_cons.mp hm with h | h
    · cases h
      have hz : amountOf w (rest.filterMap (fun p =>
          if f p > 0 then some (p.1, ((f p : ℕ) : Int)) else none)) = 0 := by
        apply amountOf_eq_zero_of_not_mem
        intro hmem
        exact hp1 (keys_filterMap_subset f rest w hmem)
      by_cases hf : f (w, n) > 0
      · rw [List.filterMap_cons, if_pos hf, amountOf_cons, if_pos rfl, hz]
        ring
      · have hf0 : f (w, n) = 0 := by omega
        rw [List.filterMap_cons, if_neg hf, hz, hf0]
        simp
    · have hp1w : p.1 ≠ w := by
        intro hpw
        exact hp1 (hpw ▸ List.mem_map.mpr ⟨(w, n), h, rfl⟩)
      by_cases hf : f p > 0
      · rw [List.filterMap_cons, if_pos hf, amountOf_cons, if_neg hp1w, ih hrest h]
        ring
      · rw [List.filterMap_cons, if_neg hf]
        exact ih hrest h

theorem lrPriorCount_split (pool ssum : ℕ) (i1 i2 : List (String × ℕ)) (w : String) (n : ℕ)
    (hnot : w ∉ i1.map Prod.fst) (hnd : ((i1 ++ (w, n) :: i2).map Prod.fst).Nodup) :
    lrPriorCount pool ssum (i1 ++ (w, n) :: i2) w =
      (((i1 ++ (w, n) :: i2).map (share_of pool ssum)).filter
        (fun e => (share_of pool ssum (w, n)).2.2 < e.2.2)).length +
      ((i1.map (share_of pool ssum)).filter
        (fun e => e.2.2 = (share_of pool ssum (w, n)).2.2)).length := by
  simp only [lrPriorCount]
  have hl : (((i1 ++ (w, n) :: i2).lookup w).getD 0) = n := by
    rw [lookup_eq_of_nodup _ w n hnd (by simp)]
    rfl
  rw [hl, findIdx_split i1 i2 w n hnot, List.take_left]
  rw [List.filter_map, List.filter_map, List.length_map, List.length_map]
  have hp1 : (fun e => decide (lrFrac pool ssum n < lrFrac pool ssum e.2)) =
      ((fun e => decide ((share_of pool ssum (w, n)).2.2 < e.2.2)) ∘ share_of pool ssum) := by
    funext e
    rfl
  have hp2 : (fun e => decide (lrFrac pool ssum e.2 = lrFrac pool ssum n)) =
      ((fun e => decide (e.2.2 = (share_of pool ssum (w, n)).2.2)) ∘ share_of pool ssum) := by
    funext e
    rfl
  rw [hp1, hp2]

/-- Claim C6: the miner pool uses the largest-remainder method.  Under the
source's entry conditions (positive pool, positive score sum, score keys
unique as dict keys are), the miner block credits every scored participant `w`
with the floor of its raw share `pool * max(0, score) / scoreSum` plus one
extra unit exactly when fewer than `remaining` participants have priority over
`w` — priority meaning a strictly larger fractional remainder, or an equal
remainder and an earlier position in encounter order (`lrGetsExtra`, written
from the spec's description of the method).  `amountOf` measures the total
credited to `w` on top of the previously accumulated payouts `P`. -/
theorem claim_C6_largest_remainder (P : List (String × Int)) (pool : ℕ)
    (avg : List (String × Int)) (w : String) (sc : Int)
    (hnd : (avg.map Prod.fst).Nodup) (hmem : (w, sc) ∈ avg)
    (hpool : 0 < pool) (hsum : 0 < score_sum_of avg) :
    amountOf w (miner_alloc P pool avg) =
      amountOf w P + ((pool * sc.toNat / score_sum_of avg : ℕ) : ℤ) +
      (if lrGetsExtra pool (score_sum_of avg) (miner_items_of avg) w then 1 else 0) := by
  obtain ⟨a1, a2, rfl⟩ := List.append_of_mem hmem
  have hkeys_items : ∀ l : List (String × Int),
      (miner_items_of l).map Prod.fst = l.map Prod.fst := by
    intro l
    simp [miner_items_of, List.map_map, Function.comp_def]
  have hsplit_items : miner_items_of (a1 ++ (w, sc) :: a2) =
      miner_items_of a1 ++ (w, sc.toNat) :: miner_items_of a2 := by
    simp [miner_items_of]
  have hnd_items : ((miner_items_of (a1 ++ (w, sc) :: a2)).map Prod.fst).Nodup := by
    rw [hkeys_items]
    exact hnd
  have hnot_a1 : w ∉ (miner_items_of a1).map Prod.fst := by
    rw [hkeys_items]
    intro hmem1
    rw [List.map_append, List.map_cons] at hnd
    have := (List.nodup_append.mp hnd).2.2
    exact this hmem1 (by simp)
  have hmem_items : (w, sc.toNat) ∈ miner_items_of (a1 ++ (w, sc) :: a2) := by
    rw [hsplit_items]
    simp
  have hne : miner_items_of (a1 ++ (w, sc) :: a2) ≠ [] := by
    rw [hsplit_items]
    simp
  simp only [miner_alloc]
  rw [if_pos ⟨hpool, hsum, hne⟩]
  have hshares : shares_of pool (score_sum_of (a1 ++ (w, sc) :: a2))
      (miner_items_of (a1 ++ (w, sc) :: a2)) =
      (miner_items_of a1).map (share_of pool (score_sum_of (a1 ++ (w, sc) :: a2))) ++
      share_of pool (score_sum_of (a1 ++ (w, sc) :: a2)) (w, sc.toNat) ::
      (miner_items_of a2).map (share_of pool (score_sum_of (a1 ++ (w, sc) :: a2))) := by
    rw [hsplit_items]
    simp [shares_of]
  obtain ⟨s1, s2, heq, hlen⟩ := sortSharesDesc_split
    (share_of pool (score_sum_of (a1 ++ (w, sc) :: a2)) (w, sc.toNat))
    ((miner_items_of a1).map (share_of pool (score_sum_of (a1 ++ (w, sc) :: a2))))
    ((miner_items_of a2).map (share_of pool (score_sum_of (a1 ++ (w, sc) :: a2))))
  have hprior : lrPriorCount pool (score_sum_of (a1 ++ (w, sc) :: a2))
      (miner_items_of (a1 ++ (w, sc) :: a2)) w = s1.length := by
    rw [hsplit_items, lrPriorCount_split _ _ _ _ _ _ hnot_a1 (by
      rw [← hsplit_items]
      exact hnd_items)]
    rw [hlen, List.map_append, List.map_cons]
  have hkeys_nodup : ((s1 ++ share_of pool (score_sum_of (a1 ++ (w, sc) :: a2))
      (w, sc.toNat) :: s2).map (fun e => e.1)).Nodup := by
    rw [← heq]
    have hperm := (perm_sortSharesDesc
      ((miner_items_of a1).map (share_of pool (score_sum_of (a1 ++ (w, sc) :: a2))) ++
        share_of pool (score_sum_of (a1 ++ (w, sc) :: a2)) (w, sc.toNat) ::
        (miner_items_of a2).map (share_of pool (score_sum_of (a1 ++ (w, sc) :: a2))))).map
      (fun e => e.1)
    rw [hperm.nodup_iff]
    rw [← hshares]
    have hkeys_shares : (shares_of pool (score_sum_of (a1 ++ (w, sc) :: a2))
        (miner_items_of (a1 ++ (w, sc) :: a2))).map (fun e => e.1) =
        (miner_items_of (a1 ++ (w, sc) :: a2)).map Prod.fst := by
      simp [shares_of, share_of, List.map_map, Function.comp_def]
    rw [hkeys_shares]
    exact hnd_items
  have hnot_s1 : (share_of pool (score_sum_of (a1 ++ (w, sc) :: a2)) (w, sc.toNat)).1 ∉
      s1.map (fun e => e.1) := by
    rw [List.map_append, List.map_cons] at hkeys_nodup
    intro hmem1
    exact (List.nodup_append.mp hkeys_nodup).2.2 hmem1 (by simp)
  have hnot_s2 : (share_of pool (score_sum_of (a1 ++ (w, sc) :: a2)) (w, sc.toNat)).1 ∉
      s2.map (fun e => e.1) := by
    rw [List.map_append, List.map_cons] at hkeys_nodup
    have := (List.nodup_append.mp hkeys_nodup).2.1
    exact (List.nodup_cons.mp this).1
  split
  · next hrem =>
    rw [hshares, heq]
    rw [amountOf_foldl_bumpOrAppend, amountOf_append,
      amountOf_filterMap_first (fun p => pool * p.2 / score_sum_of (a1 ++ (w, sc) :: a2))
        w sc.toNat _ hnd_items hmem_items]
    have hws_nodup : ((((s1 ++ share_of pool (score_sum_of (a1 ++ (w, sc) :: a2))
        (w, sc.toNat) :: s2)).take
        (((pool : ℤ) - (((miner_items_of (a1 ++ (w, sc) :: a2)).map
          (fun p => pool * p.2 / score_sum_of (a1 ++ (w, sc) :: a2))).sum : ℤ)).toNat)).map
        (fun sh => sh.1)).Nodup := by
      rw [List.map_take]
      exact (List.take_sublist _ _).nodup hkeys_nodup
    rw [nodup_count_filter _ _ hws_nodup]
    have hmemiff := mem_take_keys_iff
      (share_of pool (score_sum_of (a1 ++ (w, sc) :: a2)) (w, sc.toNat)) s1 s2 hnot_s1
      (((pool : ℤ) - (((miner_items_of (a1 ++ (w, sc) :: a2)).map
        (fun p => pool * p.2 / score_sum_of (a1 ++ (w, sc) :: a2))).sum : ℤ)).toNat)
    have hrn : (((pool : ℤ) - (((miner_items_of (a1 ++ (w, sc) :: a2)).map
        (fun p => pool * p.2 / score_sum_of (a1 ++ (w, sc) :: a2))).sum : ℤ)).toNat) =
        lrRemaining pool (score_sum_of (a1 ++ (w, sc) :: a2))
          (miner_items_of (a1 ++ (w, sc) :: a2)) := by
      simp only [lrRemaining]
      omega
    have hcondiff : (w ∈ (((s1 ++ share_of pool (score_sum_of (a1 ++ (w, sc) :: a2))
        (w, sc.toNat) :: s2)).take
        (((pool : ℤ) - (((miner_items_of (a1 ++ (w, sc) :: a2)).map
          (fun p => pool * p.2 / score_sum_of (a1 ++ (w, sc) :: a2))).sum : ℤ)).toNat)).map
        (fun sh => sh.1)) ↔
        (lrGetsExtra pool (score_sum_of (a1 ++ (w, sc) :: a2))
          (miner_items_of (a1 ++ (w, sc) :: a2)) w = true) := by
      have hmemiff2 : (w ∈ (((s1 ++ share_of pool (score_sum_of (a1 ++ (w, sc) :: a2))
          (w, sc.toNat) :: s2)).take
          (((pool : ℤ) - (((miner_items_of (a1 ++ (w, sc) :: a2)).map
            (fun p => pool * p.2 / score_sum_of (a1 ++ (w, sc) :: a2))).sum : ℤ)).toNat)).map
          (fun e => e.1)) ↔ s1.length <
          (((pool : ℤ) - (((miner_items_of (a1 ++ (w, sc) :: a2)).map
            (fun p => pool * p.2 / score_sum_of (a1 ++ (w, sc) :: a2))).sum : ℤ)).toNat) :=
        hmemiff
      rw [hmemiff2]
      simp only [lrGetsExtra, decide_eq_true_eq]
      rw [hprior, hrn]
    rw [if_congr hcondiff rfl rfl]
    split
    · push_cast
      ring
    · push_cast
      ring
  · next hrem =>
    rw [amountOf_append,
      amountOf_filterMap_first (fun p => pool * p.2 / score_sum_of (a1 ++ (w, sc) :: a2))
        w sc.toNat _ hnd_items hmem_items]
    have hextra : lrGetsExtra pool (score_sum_of (a1 ++ (w, sc) :: a2))
        (miner_items_of (a1 ++ (w, sc) :: a2)) w = false := by
      simp only [lrGetsExtra, lrRemaining]
      rw [decide_eq_false_iff_not]
      omega
    simp [hextra]
    try ring

/-- Witness for claim C6: a pool of 100 with scores `{A:1, B:1, C:1}` yields
`{A:34, B:33, C:33}` — floor shares 33 each, the single remainder unit going
to `A`, the first participant in encounter order among the equal fractional
remainders. -/
theorem claim_C6_witness :
    amountOf "A" (miner_alloc [] 100 [("A", 1), ("B", 1), ("C", 1)]) = 34 ∧
    amountOf "B" (miner_alloc [] 100 [("A", 1), ("B", 1), ("C", 1)]) = 33 ∧
    amountOf "C" (miner_alloc [] 100 [("A", 1), ("B", 1), ("C", 1)]) = 33 := by
  have hs : score_sum_of [("A", (1 : Int)), ("B", 1), ("C", 1)] = 3 := by decide
  have hi : miner_items_of [("A", (1 : Int)), ("B", 1), ("C", 1)] =
      [("A", (1 : ℕ)), ("B", 1), ("C", 1)] := by decide
  have hbase : (100 * (1 : Int).toNat / 3 : ℕ) = 33 := by decide
  have hA := claim_C6_largest_remainder [] 100 [("A", 1), ("B", 1), ("C", 1)] "A" 1
    (by decide) (by decide) (by decide) (by decide)
  have hB := claim_C6_largest_remainder [] 100 [("A", 1), ("B", 1), ("C", 1)] "B" 1
    (by decide) (by decide) (by decide) (by decide)
  have hC := claim_C6_largest_remainder [] 100 [("A", 1), ("B", 1), ("C", 1)] "C" 1
    (by decide) (by decide) (by decide) (by decide)
  rw [hs, hi, hbase, amountOf_nil] at hA hB hC
  have hgA : lrGetsExtra 100 3 [("A", 1), ("B", 1), ("C", 1)] "A" = true := by
    have hl : (([("A", 1), ("B", 1), ("C", 1)] : List (String × ℕ)).lookup "A").getD 0 = 1 := by
      decide
    have hf : ([("A", 1), ("B", 1), ("C", 1)] : List (String × ℕ)).findIdx
        (fun e => e.1 = "A") = 0 := by decide
    norm_num [lrGetsExtra, lrPriorCount, lrRemaining, lrFrac, hl, hf,
      List.filter_cons, List.take]
  have hgB : lrGetsExtra 100 3 [("A", 1), ("B", 1), ("C", 1)] "B" = false := by
    have hl : (([("A", 1), ("B", 1), ("C", 1)] : List (String × ℕ)).lookup "B").getD 0 = 1 := by
      decide
    have hf : ([("A", 1), ("B", 1), ("C", 1)] : List (String × ℕ)).findIdx
        (fun e => e.1 = "B") = 1 := by decide
    norm_num [lrGetsExtra, lrPriorCount, lrRemaining, lrFrac, hl, hf,
      List.filter_cons, List.take]
  have hgC : lrGetsExtra 100 3 [("A", 1), ("B", 1), ("C", 1)] "C" = false := by
    have hl : (([("A", 1), ("B", 1), ("C", 1)] : List (String × ℕ)).lookup "C").getD 0 = 1 := by
      decide
    have hf : ([("A", 1), ("B", 1), ("C", 1)] : List (String × ℕ)).findIdx
        (fun e => e.1 = "C") = 2 := by decide
    norm_num [lrGetsExtra, lrPriorCount, lrRemaining, lrFrac, hl, hf,
      List.filter_cons, List.take]
  simp only [hgA, hgB, hgC, if_true, Bool.false_eq_true, if_false] at hA hB hC
  refine ⟨?_, ?_, ?_⟩
  · omega
  · omega
  · omega

theorem dedup_go_append (x : String) :
    ∀ (l seen : List String), dedup.go seen (l ++ [x]) =
      dedup.go seen l ++ (if x ∈ seen ∨ x ∈ l then [] else [x]) := by
  intro l
  induction l with
  | nil =>
    intro seen
    by_cases h : x ∈ seen
    · simp [dedup.go, h]
    · simp [dedup.go, h]
  | cons y l' ih =>
    intro seen
    by_cases hy : y ∈ seen
    · rw [List.cons_append]
      rw [show dedup.go seen (y :: (l' ++ [x])) = dedup.go seen (l' ++ [x]) by
        simp [dedup.go, hy]]
      rw [show dedup.go seen (y :: l') = dedup.go seen l' by simp [dedup.go, hy]]
      rw [ih seen]
      have hc : (x ∈ seen ∨ x ∈ l') ↔ (x ∈ seen ∨ x ∈ y :: l') := by
        constructor
        · rintro (h | h)
          · exact Or.inl h
          · exact Or.inr (by simp [h])
        · rintro (h | h)
          · exact Or.inl h
          · rcases List.mem_cons.mp h with rfl | h
            · exact Or.inl hy
            · exact Or.inr h
      rw [if_congr hc rfl rfl]
    · rw [List.cons_append]
      rw [show dedup.go seen (y :: (l' ++ [x])) = y :: dedup.go (y :: seen) (l' ++ [x]) by
        simp [dedup.go, hy]]
      rw [show dedup.go seen (y :: l') = y :: dedup.go (y :: seen) l' by
        simp [dedup.go, hy]]
      rw [ih (y :: seen)]
      have hc : (x ∈ y :: seen ∨ x ∈ l') ↔ (x ∈ seen ∨ x ∈ y :: l') := by
        constructor
        · rintro (h | h)
          · rcases List.mem_cons.mp h with rfl | h
            · exact Or.inr (by simp)
            · exact Or.inl h
          · exact Or.inr (by simp [h])
        · rintro (h | h)
          · exact Or.inl (by simp [h])
          · rcases List.mem_cons.mp h with rfl | h
            · exact Or.inl (by simp)
            · exact Or.inr h
      rw [if_congr hc rfl rfl]
      simp

theorem dedup_append_singleton (l : List String) (x : String) :
    dedup (l ++ [x]) = dedup l ++ (if x ∈ l then [] else [x]) := by
  show dedup.go [] (l ++ [x]) = dedup.go [] l ++ (if x ∈ l then [] else [x])
  rw [dedup_go_append]
  have hc : (x ∈ ([] : List String) ∨ x ∈ l) ↔ x ∈ l := by simp
  rw [if_congr hc rfl rfl]

theorem mem_dedup_go (x : String) :
    ∀ (l seen : List String), x ∈ dedup.go seen l ↔ (x ∈ l ∧ x ∉ seen) := by
  intro l
  induction l with
  | nil => intro seen; simp [dedup.go]
  | cons y l' ih =>
    intro seen
    by_cases hy : y ∈ seen
    · rw [show dedup.go seen (y :: l') = dedup.go seen l' by simp [dedup.go, hy]]
      rw [ih seen]
      constructor
      · rintro ⟨h1, h2⟩
        exact ⟨by simp [h1], h2⟩
      · rintro ⟨h1, h2⟩
        rcases List.mem_cons.mp h1 with rfl | h1
        · exact absurd hy h2
        · exact ⟨h1, h2⟩
    · rw [show dedup.go seen (y :: l') = y :: dedup.go (y :: seen) l' by
        simp [dedup.go, hy]]
      constructor
      · intro h
        rcases List.mem_cons.mp h with rfl | h
        · exact ⟨by simp, hy⟩
        · rcases (ih (y :: seen)).mp h with ⟨h1, h2⟩
          refine ⟨by simp [h1], fun hs => h2 (by simp [hs])⟩
      · rintro ⟨h1, h2⟩
        rcases List.mem_cons.mp h1 with rfl | h1
        · simp
        · by_cases hxy : x = y
          · simp [hxy]
          · refine List.mem_cons.mpr (Or.inr ((ih (y :: seen)).mpr ⟨h1, ?_⟩))
            intro hs
            rcases List.mem_cons.mp hs with h | h
            · exact hxy h
            · exact h2 h

theorem mem_dedup (x : String) (l : List String) : x ∈ dedup l ↔ x ∈ l := by
  show x ∈ dedup.go [] l ↔ x ∈ l
  rw [mem_dedup_go]
  simp

theorem nodup_dedup_go :
    ∀ (l seen : List String), (dedup.go seen l).Nodup := by
  intro l
  induction l with
  | nil => intro seen; simp [dedup.go]
  | cons y l' ih =>
    intro seen
    by_cases hy : y ∈ seen
    · rw [show dedup.go seen (y :: l') = dedup.go seen l' by simp [dedup.go, hy]]
      exact ih seen
    · rw [show dedup.go seen (y :: l') = y :: dedup.go (y :: seen) l' by
        simp [dedup.go, hy]]
      rw [List.nodup_cons]
      refine ⟨?_, ih (y :: seen)⟩
      intro hmem
      exact ((mem_dedup_go y l' (y :: seen)).mp hmem).2 (by simp)

theorem nodup_dedup (l : List String) : (dedup l).Nodup := nodup_dedup_go l []

theorem addScore_not_mem (w : String) (s : Int) :
    ∀ G : List (String × List Int), w ∉ G.map Prod.fst →
      addScore G w s = G ++ [(w, [s])] := by
  intro G
  induction G with
  | nil => intro _; rfl
  | cons e G' ih =>
    intro h
    obtain ⟨k, v⟩ := e
    have hk : ¬(k = w) := by
      intro hkw
      exact h (by simp [hkw])
    rw [addScore, if_neg hk, ih (fun hm => h (by simp [hm]))]
    simp

theorem addScore_mem_nodup (w : String) (s : Int) :
    ∀ G : List (String × List Int), (G.map Prod.fst).Nodup → w ∈ G.map Prod.fst →
      addScore G w s = G.map (fun e => if e.1 = w then (e.1, e.2 ++ [s]) else e) := by
  intro G
  induction G with
  | nil => intro _ h; cases h
  | cons e G' ih =>
    intro hnd hmem
    obtain ⟨k, v⟩ := e
    rw [List.map_cons] at hnd
    rcases List.nodup_cons.mp hnd with ⟨hk1, hk2⟩
    by_cases hk : k = w
    · subst hk
      rw [addScore, if_pos rfl, List.map_cons]
      simp only [if_pos rfl]
      have hG' : G'.map (fun e => if e.1 = k then (e.1, e.2 ++ [s]) else e) = G' := by
        conv_rhs => rw [← List.map_id G']
        apply List.map_congr_left
        intro e he
        have he1 : e.1 ≠ k := by
          intro h1
          exact hk1 (h1 ▸ List.mem_map.mpr ⟨e, he, rfl⟩)
        rw [if_neg he1]
        rfl
      rw [hG']
      simp
    · have hmem' : w ∈ G'.map Prod.fst := by
        rw [List.map_cons] at hmem
        rcases List.mem_cons.mp hmem with h | h
        · exact absurd h.symm hk
        · exact h
      rw [addScore, if_neg hk, ih hk2 hmem', List.map_cons]
      simp only [if_neg hk]

theorem foldl_addScore_eq (pairs : List (String × Int)) :
    pairs.foldl (fun acc p => addScore acc (normWallet p) p.2) [] =
      (dedup (pairs.map normWallet)).map (fun w =>
        (w, (pairs.filter (fun p => normWallet p = w)).map (fun p => p.2))) := by
  induction pairs using List.reverseRecOn with
  | nil => rfl
  | append_singleton pairs p ih =>
    rw [List.foldl_append, List.foldl_cons, List.foldl_nil, ih]
    have hkeys : ((dedup (pairs.map normWallet)).map (fun w =>
        (w, (pairs.filter (fun p => normWallet p = w)).map (fun p => p.2)))).map Prod.fst =
        dedup (pairs.map normWallet) := by
      rw [List.map_map]
      conv_rhs => rw [← List.map_id (dedup (pairs.map normWallet))]
      exact List.map_congr_left (fun w _ => rfl)
    by_cases hmem : normWallet p ∈ pairs.map normWallet
    · rw [addScore_mem_nodup _ _ _ (by rw [hkeys]; exact nodup_dedup _)
        (by rw [hkeys]; exact (mem_dedup _ _).mpr hmem)]
      rw [List.map_map]
      simp only [List.map_append, List.map_cons, List.map_nil]
      rw [dedup_append_singleton, if_pos hmem, List.append_nil]
      apply List.map_congr_left
      intro w _
      simp only [Function.comp_def]
      by_cases hw : w = normWallet p
      · rw [if_pos (by simp [hw]), List.filter_append, List.map_append]
        simp [List.filter_cons, hw.symm]
      · rw [if_neg (by simp [hw]), List.filter_append, List.map_append]
        have : ¬(normWallet p = w) := fun h => hw h.symm
        simp [List.filter_cons, this]
    · rw [addScore_not_mem _ _ _ (by rw [hkeys]; exact fun h => hmem ((mem_dedup _ _).mp h))]
      simp only [List.map_append, List.map_cons, List.map_nil]
      rw [dedup_append_singleton, if_neg hmem, List.map_append]
      congr 1
      · apply List.map_congr_left
        intro w hw
        have hwmem : w ∈ pairs.map normWallet := (mem_dedup _ _).mp hw
        have hne : ¬(normWallet p = w) := by
          intro h
          exact hmem (h ▸ hwmem)
        rw [List.filter_append, List.map_append]
        simp [List.filter_cons, hne]
      · have hfil : pairs.filter (fun q => normWallet q = normWallet p) = [] := by
          rw [List.filter_eq_nil_iff]
          intro q hq
          simp only [decide_eq_true_eq]
          intro h
          exact hmem (h ▸ List.mem_map.mpr ⟨q, hq, rfl⟩)
        simp [List.filter_append, List.filter_cons, hfil]

/-- Claim C2, amended: `_aggregate_scores` produces one row per distinct
(normalised) wallet, in first-occurrence order, whose score is the arithmetic
mean of that wallet's pair scores rounded to the nearest integer with ties
rounded half to even (Python 3 `round`), not half away from zero. -/
theorem claim_C2_amended (pairs : List (String × Int)) :
    aggregate_scores pairs =
      (dedup (pairs.map normWallet)).map (fun w =>
        (w, pyRound (((((pairs.filter (fun p => normWallet p = w)).map
            (fun p => p.2)).sum : ℤ) : ℚ) /
          ((max 1 ((pairs.filter (fun p => normWallet p = w)).map
            (fun p => p.2)).length : ℕ) : ℚ)))) := by
  rw [aggregate_scores, foldl_addScore_eq, List.map_map]
  apply List.map_congr_left
  intro w _
  rfl

/-- Claim C2 counterexample: two pairs for participant `A` with scores 2 and 3
have mean `5 / 2 = 2.5`; rounding half away from zero (the claim) gives 3, but
Python 3 `round` rounds ties to the even integer, so `_aggregate_scores`
returns 2.  (`5 / 2` is exactly representable as a float, so the IEEE value of
`sum(scores) / len(scores)` is exactly the rational the model uses.) -/
theorem claim_C2_counterexample :
    aggregate_scores [("A", 2), ("A", 3)] = [("A", 2)] ∧
    roundHalfAwayFromZero (((2 : ℤ) + 3 : ℚ) / 2) = 3 := by
  constructor
  · have hfloor : ⌊(5 : ℚ) / 2⌋ = 2 := by norm_num
    have hA : ¬(("A" : String) = "") := by decide
    have hfract : Int.fract ((5 : ℚ) / 2) = 1 / 2 := by
      rw [Int.fract, hfloor]
      norm_num
    norm_num [aggregate_scores, addScore, normWallet, pyRound, hfloor, hfract, hA]
  · have hfloor : ⌊((2 : ℤ) + 3 : ℚ) / 2⌋ = 2 := by norm_num
    norm_num [roundHalfAwayFromZero, hfloor]

theorem clamp0100_bounds (n : Int) : 0 ≤ clamp0100 n ∧ clamp0100 n ≤ 100 := by
  constructor
  · exact le_max_left 0 _
  · exact max_le (by norm_num) (min_le_left _ _)

theorem numeric_heuristic_bounds (t c : String) :
    0 ≤ numeric_heuristic t c ∧ numeric_heuristic t c ≤ 100 := by
  simp only [numeric_heuristic]
  split
  · split
    · norm_num
    · split
      · norm_num
      · split
        · norm_num
        · split
          · norm_num
          · norm_num
  · split
    · norm_num
    · constructor
      · exact le_max_left _ _
      · exact max_le (by norm_num) (le_trans (min_le_left _ _) (by norm_num))

/-- Claim C3 counterexample: with reference `"The answer is -7"` and candidate
`"I think it's -7"` the deterministic heuristic scores 100 (full integer
match), but when the HTTP request itself raises (network error / timeout) the
outer `except Exception` of `_openai_score_answer` returns 0 — the heuristic
fallback is not consulted on that path. -/
theorem claim_C3_counterexample :
    openai_score_answer .raised "The answer is -7" "I think it's -7" = 0 ∧
    clamp0100 (numeric_heuristic "The answer is -7" "I think it's -7") = 100 ∧
    numeric_heuristic "The answer is -7" "I think it's -7" = 100 := by
  refine ⟨rfl, ?_, ?_⟩ <;> decide

/-- Claim C3, amended: `_openai_score_answer` never propagates an error and
always returns a value in `[0, 100]`; an HTTP-level failure (`resp.ok` false)
or an unparsable reply resolves to the clamped deterministic heuristic, but a
raised request (network error / timeout) short-circuits to 0 without running
the heuristic. -/
theorem claim_C3_amended (outcome : OracleOutcome) (truth candidate : String) :
    (0 ≤ openai_score_answer outcome truth candidate ∧
      openai_score_answer outcome truth candidate ≤ 100) ∧
    openai_score_answer .raised truth candidate = 0 ∧
    openai_score_answer .httpError truth candidate =
      clamp0100 (numeric_heuristic truth candidate) ∧
    openai_score_answer .unparsable truth candidate =
      clamp0100 (numeric_heuristic truth candidate) := by
  refine ⟨?_, rfl, rfl, rfl⟩
  cases outcome with
  | raised => constructor <;> norm_num [openai_score_answer]
  | noApiKey => exact numeric_heuristic_bounds truth candidate
  | httpError => exact clamp0100_bounds _
  | scoreParsed n => exact clamp0100_bounds _
  | unparsable => exact clamp0100_bounds _

/-- Claim C8: in the oracle-unavailable fallback, when the reference contains
at least one integer token and every reference integer (after normalising the
Unicode minus sign) occurs among the candidate's integer tokens, the score is
exactly 100. -/
theorem claim_C8_full_match (t c : String)
    (h1 : extract_ints t ≠ [])
    (h2 : ∀ n ∈ extract_ints t, n ∈ extract_ints c) :
    openai_score_answer .noApiKey t c = 100 := by
  show numeric_heuristic t c = 100
  have hfilter : (extract_ints t).filter (fun n => (extract_ints c).contains n) =
      extract_ints t := by
    rw [List.filter_eq_self]
    intro n hn
    exact List.elem_eq_true_of_mem (h2 n hn)
  simp only [numeric_heuristic]
  rw [if_pos h1]
  rw [if_pos ⟨by rw [hfilter], List.length_pos.mpr h1⟩]

/-- Witness for claim C8: reference `"The answer is -7"`, candidate
`"I think it's -7"`, no oracle available: the single reference integer `-7`
occurs among the candidate's integer tokens, so the score is exactly 100. -/
theorem claim_C8_witness :
    extract_ints "The answer is -7" ≠ [] ∧
    (∀ n ∈ extract_ints "The answer is -7", n ∈ extract_ints "I think it's -7") ∧
    openai_score_answer .noApiKey "The answer is -7" "I think it's -7" = 100 :=
  ⟨by decide, by decide,
    claim_C8_full_match "The answer is -7" "I think it's -7" (by decide) (by decide)⟩

/-! ## Registry claims: release and allocation -/

theorem jget_jset_ne (o : Obj) (k k' : String) (v : Json) (h : k' ≠ k) :
    jget k (jset o k' v) = jget k o := by
  induction o with
  | nil => simp [jset, jget, h]
  | cons e rest ih =>
    obtain ⟨ek, ev⟩ := e
    by_cases he : ek = k'
    · subst he
      rw [jset, if_pos rfl, jget, jget, if_neg h]
      by_cases hek : ek = k
      · exact absurd hek (by simpa using h.symm ∘ Eq.symm ∘ fun hx => hek)
      · rw [if_neg hek]
    · rw [jset, if_neg he, jget, jget]
      by_cases hek : ek = k
      · rw [if_pos hek, if_pos hek]
      · rw [if_neg hek, if_neg hek, ih]

theorem jget_jpop_ne (o : Obj) (k k' : String) (h : k' ≠ k) :
    jget k (jpop o k') = jget k o := by
  induction o with
  | nil => rfl
  | cons e rest ih =>
    obtain ⟨ek, ev⟩ := e
    by_cases he : ek = k'
    · subst he
      rw [jpop, if_pos rfl, jget, if_neg (by simpa using h)]
    · rw [jpop, if_neg he, jget, jget]
      by_cases hek : ek = k
      · rw [if_pos hek, if_pos hek]
      · rw [if_neg hek, if_neg hek, ih]

theorem jget_jset_self (o : Obj) (k : String) (v : Json) :
    jget k (jset o k v) = some v := by
  induction o with
  | nil => simp [jset, jget]
  | cons e rest ih =>
    obtain ⟨ek, ev⟩ := e
    by_cases he : ek = k
    · rw [jset, if_pos he, jget, if_pos rfl]
    · rw [jset, if_neg he, jget, if_neg he, ih]

theorem releaseRec_preserves (rec : Obj) (now : String) (k : String)
    (hk : k ∉ ["status", "minerAddress", "instanceName", "assignedAt", "releasedAt"]) :
    jget k (releaseRec rec now) = jget k rec := by
  simp only [List.mem_cons, List.mem_singleton, not_or] at hk
  obtain ⟨h1, h2, h3, h4, h5, -⟩ := hk
  rw [releaseRec,
    jget_jset_ne _ _ _ _ (fun h => h5 h.symm),
    jget_jpop_ne _ _ _ (fun h => h4 h.symm),
    jget_jpop_ne _ _ _ (fun h => h3 h.symm),
    jget_jpop_ne _ _ _ (fun h => h2 h.symm),
    jget_jset_ne _ _ _ _ (fun h => h1 h.symm)]

theorem releaseScan_not_found (needle now : String) :
    ∀ ds : List Obj, (∀ r ∈ ds, matchesVmId r needle = false) →
      releaseScan needle now ds = (ds, false) := by
  intro ds
  induction ds with
  | nil => intro _; rfl
  | cons rec rest ih =>
    intro h
    rw [releaseScan, if_neg (by rw [h rec (by simp)]; exact Bool.false_ne_true)]
    rw [ih (fun r hr => h r (by simp [hr]))]

theorem releaseScan_found (needle now : String) (rec : Obj) :
    ∀ pre suf : List Obj, (∀ r ∈ pre, matchesVmId r needle = false) →
      matchesVmId rec needle = true →
      releaseScan needle now (pre ++ rec :: suf) =
        (pre ++ releaseRec rec now :: suf, true) := by
  intro pre
  induction pre with
  | nil =>
    intro suf _ hrec
    rw [List.nil_append, releaseScan, if_pos hrec, List.nil_append]
  | cons p pre' ih =>
    intro suf hpre hrec
    rw [List.cons_append, releaseScan,
      if_neg (by rw [hpre p (by simp)]; exact Bool.false_ne_true)]
    rw [ih suf (fun r hr => hpre r (by simp [hr])) hrec, List.cons_append]

/-- Claim C4 counterexample: a registry holding one record that is already
`inactive` (`vmId = "vm1"`, `releasedAt = "T0"`).  Releasing `"vm1"` again is
not a no-op: the update reports a change (`True`, so the registry file is
rewritten) and restamps the matched record's `releasedAt` from `"T0"` to the
new timestamp `"T1"` — the code never checks the record's current status
before mutating it. -/
theorem claim_C4_counterexample :
    (release_update [[("vmId", Json.str "vm1"), ("status", Json.str "inactive"),
        ("releasedAt", Json.str "T0")]] "vm1" "T1").2 = true ∧
    jget "releasedAt" ((release_update [[("vmId", Json.str "vm1"),
        ("status", Json.str "inactive"), ("releasedAt", Json.str "T0")]]
        "vm1" "T1").1.headD []) = some (Json.str "T1") ∧
    jget "releasedAt" [("vmId", Json.str "vm1"), ("status", Json.str "inactive"),
        ("releasedAt", Json.str "T0")] = some (Json.str "T0") := by
  exact ⟨rfl, rfl, rfl⟩

/-- Claim C4, amended: releasing an instance whose id matches no registry
record is a no-op reported as `False` (nothing is modified, nothing saved).
Releasing an instance that matches a record — whatever its current status —
mutates only the first matching record: its binding fields (`status`,
`minerAddress`, `instanceName`, `assignedAt`) and `releasedAt` are rewritten
and every other field of that record, and every other record, is unchanged.
In particular releasing an already-inactive record restamps its `releasedAt`
rather than leaving it untouched. -/
theorem claim_C4_amended (ds pre suf : List Obj) (rec : Obj) (vm_id now : String)
    (hmiss : ∀ r ∈ ds, matchesVmId r (pyLower (pyStrip vm_id)) = false)
    (hpre : ∀ r ∈ pre, matchesVmId r (pyLower (pyStrip vm_id)) = false)
    (hrec : matchesVmId rec (pyLower (pyStrip vm_id)) = true) :
    release_update ds vm_id now = (ds, false) ∧
    release_update (pre ++ rec :: suf) vm_id now =
      (pre ++ releaseRec rec now :: suf, true) ∧
    jget "status" (releaseRec rec now) = some (Json.str "inactive") ∧
    jget "releasedAt" (releaseRec rec now) = some (Json.str now) ∧
    (∀ k, k ∉ ["status", "minerAddress", "instanceName", "assignedAt", "releasedAt"] →
      jget k (releaseRec rec now) = jget k rec) := by
  refine ⟨releaseScan_not_found _ _ ds hmiss,
    releaseScan_found _ _ rec pre suf hpre hrec, ?_, ?_,
    fun k hk => releaseRec_preserves rec now k hk⟩
  · rw [releaseRec,
      jget_jset_ne _ _ _ _ (by intro h; exact absurd h (by decide)),
      jget_jpop_ne _ _ _ (by intro h; exact absurd h (by decide)),
      jget_jpop_ne _ _ _ (by intro h; exact absurd h (by decide)),
      jget_jpop_ne _ _ _ (by intro h; exact absurd h (by decide))]
    exact jget_jset_self _ _ _
  · exact jget_jset_self _ _ _

/-- Witness for the amended claim C4: needle `"VM2"` (upper case, matched
case-insensitively).  A registry holding only an unrelated record is left
unchanged with `changed = False`; in a registry where that unrelated record is
followed by an active record with `vmId = "vm2"`, only the second record is
mutated and its `createdAt` is preserved. -/
theorem claim_C4_amended_witness :
    release_update [[("vmId", Json.str "vm9"), ("status", Json.str "active")]]
        "VM2" "T1" =
      ([[("vmId", Json.str "vm9"), ("status", Json.str "active")]], false) ∧
    release_update
        [[("vmId", Json.str "vm9"), ("status", Json.str "active")],
         [("vmId", Json.str "vm2"), ("status", Json.str "active"),
          ("minerAddress", Json.str "0xA"), ("createdAt", Json.str "C0")]]
        "VM2" "T1" =
      ([[("vmId", Json.str "vm9"), ("status", Json.str "active")],
        releaseRec [("vmId", Json.str "vm2"), ("status", Json.str "active"),
          ("minerAddress", Json.str "0xA"), ("createdAt", Json.str "C0")] "T1"], true) ∧
    jget "createdAt" (releaseRec [("vmId", Json.str "vm2"),
        ("status", Json.str "active"), ("minerAddress", Json.str "0xA"),
        ("createdAt", Json.str "C0")] "T1") = some (Json.str "C0") := by
  have h := claim_C4_amended
    [[("vmId", Json.str "vm9"), ("status", Json.str "active")]]
    [[("vmId", Json.str "vm9"), ("status", Json.str "active")]]
    []
    [("vmId", Json.str "vm2"), ("status", Json.str "active"),
     ("minerAddress", Json.str "0xA"), ("createdAt", Json.str "C0")]
    "VM2" "T1"
    (by intro r hr; rw [List.mem_singleton] at hr; subst hr; rfl)
    (by intro r hr; rw [List.mem_singleton] at hr; subst hr; rfl)
    (by rfl)
  exact ⟨h.1, h.2.1, h.2.2.2.2 "createdAt" (by decide)⟩

theorem tryReuse_found (m n now : String) (rec : Obj) :
    ∀ pre suf : List Obj, (∀ r ∈ pre, statusIs r "inactive" = false) →
      statusIs rec "inactive" = true →
      tryReuse m n now (pre ++ rec :: suf) =
        some (pre ++ assignRec rec m n now :: suf, assignRec rec m n now) := by
  intro pre
  induction pre with
  | nil =>
    intro suf _ hrec
    rw [List.nil_append, tryReuse, if_pos hrec, List.nil_append]
  | cons p pre' ih =>
    intro suf hpre hrec
    rw [List.cons_append, tryReuse,
      if_neg (by rw [hpre p (by simp)]; exact Bool.false_ne_true)]
    rw [ih suf (fun r hr => hpre r (by simp [hr])) hrec, List.cons_append]

/-- Claim C7: when the registry holds an inactive record, `allocate_vm_to_miner`
transitions the first inactive record in registry insertion order to `active`,
binding the miner address, instance name and timestamp — and the result is the
same for every deploy outcome `dr`, including `none` (the provider's create
call raising): the provider is never consulted, so allocation succeeds even
when `deploy_vm` would fail. -/
theorem claim_C7_reuse_first_inactive (pre suf : List Obj) (rec : Obj)
    (m n now : String)
    (hpre : ∀ r ∈ pre, statusIs r "inactive" = false)
    (hrec : statusIs rec "inactive" = true) :
    (∀ dr : Option Json,
      allocate_vm_to_miner (pre ++ rec :: suf) m n now dr =
        .ok (pre ++ assignRec rec m n now :: suf, some (assignRec rec m n now))) ∧
    jget "status" (assignRec rec m n now) = some (Json.str "active") ∧
    jget "minerAddress" (assignRec rec m n now) = some (Json.str m) ∧
    jget "instanceName" (assignRec rec m n now) = some (Json.str n) ∧
    jget "assignedAt" (assignRec rec m n now) = some (Json.str now) := by
  refine ⟨?_, ?_, ?_, ?_, ?_⟩
  · intro dr
    rw [allocate_vm_to_miner.eq_def, tryReuse_found m n now rec pre suf hpre hrec]
  · rw [assignRec, jget_jset_ne _ _ _ _ (by decide), jget_jset_ne _ _ _ _ (by decide),
      jget_jset_ne _ _ _ _ (by decide), jget_jset_self]
  · rw [assignRec, jget_jset_ne _ _ _ _ (by decide), jget_jset_ne _ _ _ _ (by decide),
      jget_jset_self]
  · rw [assignRec, jget_jset_ne _ _ _ _ (by decide), jget_jset_self]
  · rw [assignRec, jget_jset_self]

/-- Witness for claim C7: one active record followed by one inactive record;
allocation with `dr = none` (provider create failing) succeeds by reusing the
inactive record, which becomes active and bound, keeping its `createdAt`. -/
theorem claim_C7_witness :
    allocate_vm_to_miner
        [[("vmId", Json.str "vm9"), ("status", Json.str "active")],
         [("vmId", Json.str "vm1"), ("status", Json.str "inactive"),
          ("createdAt", Json.str "C0")]] "0xM" "inst-1" "T0" none =
      .ok ([[("vmId", Json.str "vm9"), ("status", Json.str "active")],
        assignRec [("vmId", Json.str "vm1"), ("status", Json.str "inactive"),
          ("createdAt", Json.str "C0")] "0xM" "inst-1" "T0"],
        some (assignRec [("vmId", Json.str "vm1"), ("status", Json.str "inactive"),
          ("createdAt", Json.str "C0")] "0xM" "inst-1" "T0")) ∧
    jget "status" (assignRec [("vmId", Json.str "vm1"),
        ("status", Json.str "inactive"), ("createdAt", Json.str "C0")]
        "0xM" "inst-1" "T0") = some (Json.str "active") ∧
    jget "minerAddress" (assignRec [("vmId", Json.str "vm1"),
        ("status", Json.str "inactive"), ("createdAt", Json.str "C0")]
        "0xM" "inst-1" "T0") = some (Json.str "0xM") := by
  have h := claim_C7_reuse_first_inactive
    [[("vmId", Json.str "vm9"), ("status", Json.str "active")]] []
    [("vmId", Json.str "vm1"), ("status", Json.str "inactive"),
     ("createdAt", Json.str "C0")]
    "0xM" "inst-1" "T0"
    (by intro r hr; rw [List.mem_singleton] at hr; subst hr; rfl)
    (by rfl)
  exact ⟨h.1 none, h.2.1, h.2.2.1⟩

theorem tryReuse_none (m n now : String) :
    ∀ ds : List Obj, (∀ r ∈ ds, statusIs r "inactive" = false) →
      tryReuse m n now ds = none := by
  intro ds
  induction ds with
  | nil => intro _; rfl
  | cons rec rest ih =>
    intro h
    rw [tryReuse, if_neg (by rw [h rec (by simp)]; exact Bool.false_ne_true)]
    rw [ih (fun r hr => h r (by simp [hr]))]

theorem vmIdIn_nil (v : Option Json) : vmIdIn v [] = false := by
  cases v <;> rfl

theorem tryAssignNew_nil (m n now : String) :
    ∀ ds : List Obj, tryAssignNew [] m n now ds = none := by
  intro ds
  induction ds with
  | nil => rfl
  | cons rec rest ih =>
    rw [tryAssignNew,
      if_neg (by rw [vmIdIn_nil, Bool.false_and]; exact Bool.false_ne_true), ih]

/-- Claim C10: when no registry record is inactive (so a deploy is attempted)
and the provider's deploy result yields no recognizable VM (nothing is
extracted, so no new inactive record is created and the post-deploy assignment
loop finds nothing), `allocate_vm_to_miner` falls back to assigning the LAST
registry record regardless of its current status: its `minerAddress`,
`instanceName` and `assignedAt` are overwritten with the new requester's
binding and its status forced to `active`. -/
theorem claim_C10_last_record_fallback (init : List Obj) (lastRec : Obj)
    (m n now : String) (dr : Json)
    (hno : ∀ r ∈ init ++ [lastRec], statusIs r "inactive" = false)
    (hext : extract_vms_from_deploy_result dr = []) :
    allocate_vm_to_miner (init ++ [lastRec]) m n now (some dr) =
      .ok (init ++ [assignRec lastRec m n now], some (assignRec lastRec m n now)) ∧
    jget "minerAddress" (assignRec lastRec m n now) = some (Json.str m) ∧
    jget "instanceName" (assignRec lastRec m n now) = some (Json.str n) ∧
    jget "assignedAt" (assignRec lastRec m n now) = some (Json.str now) ∧
    jget "status" (assignRec lastRec m n now) = some (Json.str "active") := by
  refine ⟨?_, ?_, ?_, ?_, ?_⟩
  · have h1 : tryReuse m n now (init ++ [lastRec]) = none :=
      tryReuse_none m n now _ hno
    simp only [allocate_vm_to_miner.eq_def, h1, hext, recordNewVms, List.map_nil,
      List.append_nil, tryAssignNew_nil m n now, List.getLast?_concat,
      List.dropLast_concat]
  · rw [assignRec, jget_jset_ne _ _ _ _ (by decide), jget_jset_ne _ _ _ _ (by decide),
      jget_jset_self]
  · rw [assignRec, jget_jset_ne _ _ _ _ (by decide), jget_jset_self]
  · rw [assignRec, jget_jset_self]
  · rw [assignRec, jget_jset_ne _ _ _ _ (by decide), jget_jset_ne _ _ _ _ (by decide),
      jget_jset_ne _ _ _ _ (by decide), jget_jset_self]

/-- Witness for claim C10: a registry of two active records, the last already
bound to miner `"0xOLD"`, and an empty-object deploy result (nothing
extractable).  Allocation rebinds that last active record to the new requester
`"0xM"`, silently overwriting the previous binding. -/
theorem claim_C10_witness :
    allocate_vm_to_miner
        [[("vmId", Json.str "vm8"), ("status", Json.str "active")],
         [("vmId", Json.str "vm1"), ("status", Json.str "active"),
          ("minerAddress", Json.str "0xOLD")]] "0xM" "inst-1" "T0"
        (some (Json.obj [])) =
      .ok ([[("vmId", Json.str "vm8"), ("status", Json.str "active")],
        assignRec [("vmId", Json.str "vm1"), ("status", Json.str "active"),
          ("minerAddress", Json.str "0xOLD")] "0xM" "inst-1" "T0"],
        some (assignRec [("vmId", Json.str "vm1"), ("status", Json.str "active"),
          ("minerAddress", Json.str "0xOLD")] "0xM" "inst-1" "T0")) ∧
    jget "minerAddress" [("vmId", Json.str "vm1"), ("status", Json.str "active"),
        ("minerAddress", Json.str "0xOLD")] = some (Json.str "0xOLD") ∧
    jget "minerAddress" (assignRec [("vmId", Json.str "vm1"),
        ("status", Json.str "active"), ("minerAddress", Json.str "0xOLD")]
        "0xM" "inst-1" "T0") = some (Json.str "0xM") := by
  have h := claim_C10_last_record_fallback
    [[("vmId", Json.str "vm8"), ("status", Json.str "active")]]
    [("vmId", Json.str "vm1"), ("status", Json.str "active"),
     ("minerAddress", Json.str "0xOLD")]
    "0xM" "inst-1" "T0" (Json.obj [])
    (by
      intro r hr
      rw [List.mem_append, List.mem_singleton, List.mem_singleton] at hr
      rcases hr with h1 | h1 <;> (subst h1; rfl))
    (by rfl)
  exact ⟨h.1, rfl, h.2.1⟩

/-! ## Parser claims -/

theorem vmPair_some_ne (o : Obj) (q t : Option String) (vm : Json) (p : ScorePair)
    (h : vmPair o q t vm = some p) : p.walletId ≠ "" ∧ p.candidate ≠ "" := by
  rcases vm with _ | b | nn | s | xs | vo
  case null => exact absurd h (by simp [vmPair])
  case bool => exact absurd h (by simp [vmPair])
  case num => exact absurd h (by simp [vmPair])
  case str => exact absurd h (by simp [vmPair])
  case arr => exact absurd h (by simp [vmPair])
  case obj =>
    simp only [vmPair] at h
    rcases hwv : pyOrS (extract_wallet_id vo) (extract_wallet_id o) with _ | w <;>
      rcases hcv : pyOrS (extract_candidate vo) (extract_candidate o) with _ | c <;>
      simp only [hwv, hcv] at h
    case none.none => exact Option.noConfusion h
    case none.some => exact Option.noConfusion h
    case some.none => exact Option.noConfusion h
    case some.some =>
      by_cases hcond : w ≠ "" ∧ c ≠ ""
      · rw [if_pos hcond] at h
        cases Option.some.inj h
        exact ⟨hcond.1, hcond.2⟩
      · rw [if_neg hcond] at h
        exact Option.noConfusion h

theorem singleEmit_mem_ne (o : Obj) (q t : Option String) (p : ScorePair)
    (hp : p ∈ singleEmit o q t) : p.walletId ≠ "" ∧ p.candidate ≠ "" := by
  simp only [singleEmit] at hp
  rcases hwo : extract_wallet_id o with _ | w <;>
    rcases hco : extract_candidate o with _ | c <;>
    simp only [hwo, hco] at hp
  case none.none => exact absurd hp (List.not_mem_nil p)
  case none.some => exact absurd hp (List.not_mem_nil p)
  case some.none => exact absurd hp (List.not_mem_nil p)
  case some.some =>
    by_cases hcond : w ≠ "" ∧ c ≠ ""
    · rw [if_pos hcond, List.mem_singleton] at hp
      subst hp
      exact ⟨hcond.1, hcond.2⟩
    · rw [if_neg hcond] at hp
      exact absurd hp (List.not_mem_nil p)

theorem singleEmit_of_no_candidate (o : Obj) (q t : Option String)
    (hc : extract_candidate o = none) : singleEmit o q t = [] := by
  rcases hwo : extract_wallet_id o with _ | w <;> simp only [singleEmit, hwo, hc]

theorem parse_aux_cons_skip (lq lt : Option String) (m : RawMsg) (rest : List RawMsg)
    (h : resolve_parsed m = none) :
    parse_aux lq lt (m :: rest) = parse_aux lq lt rest := by
  rw [parse_aux, h]

theorem parse_aux_cons_vms (lq lt : Option String) (m : RawMsg) (rest : List RawMsg)
    (o : Obj) (vms : List Json) (h : resolve_parsed m = some o)
    (hv : vmsOf o = some vms) :
    parse_aux lq lt (m :: rest) =
      vms.filterMap
        (vmPair o (pyOrS (extract_question o) lq) (pyOrS (extract_truth o) lt)) ++
      parse_aux (pyOrS (extract_question o) lq) (pyOrS (extract_truth o) lt) rest := by
  simp only [parse_aux, h, hv]

theorem parse_aux_cons_single (lq lt : Option String) (m : RawMsg) (rest : List RawMsg)
    (o : Obj) (h : resolve_parsed m = some o) (hv : vmsOf o = none) :
    parse_aux lq lt (m :: rest) =
      singleEmit o (pyOrS (extract_question o) lq) (pyOrS (extract_truth o) lt) ++
      parse_aux (pyOrS (extract_question o) lq) (pyOrS (extract_truth o) lt) rest := by
  simp only [parse_aux, h, hv]

theorem parse_aux_mem_ne :
    ∀ (msgs : List RawMsg) (lq lt : Option String) (p : ScorePair),
      p ∈ parse_aux lq lt msgs → p.walletId ≠ "" ∧ p.candidate ≠ "" := by
  intro msgs
  induction msgs with
  | nil =>
    intro lq lt p hp
    exact absurd hp (List.not_mem_nil p)
  | cons m rest ih =>
    intro lq lt p hp
    rcases hres : resolve_parsed m with _ | o
    · rw [parse_aux_cons_skip lq lt m rest hres] at hp
      exact ih lq lt p hp
    · rcases hv : vmsOf o with _ | vms
      · rw [parse_aux_cons_single lq lt m rest o hres hv] at hp
        rcases List.mem_append.mp hp with h1 | h2
        · exact singleEmit_mem_ne o _ _ p h1
        · exact ih _ _ p h2
      · rw [parse_aux_cons_vms lq lt m rest o vms hres hv] at hp
        rcases List.mem_append.mp hp with h1 | h2
        · rcases List.mem_filterMap.mp h1 with ⟨vm, _, hvm⟩
          exact vmPair_some_ne o _ _ vm p hvm
        · exact ih _ _ p h2

/-- Claim C9: the message parser is total and silent on malformed input.  (1)
Every pair emitted for any message list has a non-empty resolved wallet id and
a non-empty candidate.  (2) A message the decode cascade cannot resolve into a
keyed object is skipped and processing continues on the rest.  (3) A resolved
single-answer message with no extractable candidate emits nothing — the tuple
is dropped silently (only the rolling question/truth context advances).  (4) A
resolved single-answer message with wallet and candidate but no extractable
truth and no prior truth context is emitted with the empty string as its
reference. -/
theorem claim_C9_parser_robustness
    (msgs : List RawMsg) (bad m m' : RawMsg) (rest : List RawMsg)
    (lq lt : Option String) (o o' : Obj) (w c : String)
    (hbad : resolve_parsed bad = none)
    (hres : resolve_parsed m = some o)
    (hvms : vmsOf o = none)
    (hcand : extract_candidate o = none)
    (hres' : resolve_parsed m' = some o')
    (hvms' : vmsOf o' = none)
    (hw : extract_wallet_id o' = some w) (hw0 : w ≠ "")
    (hc : extract_candidate o' = some c) (hc0 : c ≠ "")
    (ht : extract_truth o' = none) :
    (∀ p ∈ parse_messages_to_pairs msgs, p.walletId ≠ "" ∧ p.candidate ≠ "") ∧
    parse_aux lq lt (bad :: rest) = parse_aux lq lt rest ∧
    parse_aux lq lt (m :: rest) =
      parse_aux (pyOrS (extract_question o) lq) (pyOrS (extract_truth o) lt) rest ∧
    parse_aux lq none (m' :: rest) =
      ⟨w, (pyOrS (extract_question o') lq).getD "", "", c⟩ ::
        parse_aux (pyOrS (extract_question o') lq) none rest := by
  refine ⟨fun p hp => parse_aux_mem_ne msgs none none p hp,
    parse_aux_cons_skip lq lt bad rest hbad, ?_, ?_⟩
  · rw [parse_aux_cons_single lq lt m rest o hres hvms,
      singleEmit_of_no_candidate o _ _ hcand, List.nil_append]
  · rw [parse_aux_cons_single lq none m' rest o' hres' hvms', ht]
    have hse : singleEmit o' (pyOrS (extract_question o') lq) none =
        [⟨w, (pyOrS (extract_question o') lq).getD "", "", c⟩] := by
      simp only [singleEmit, hw, hc]
      rw [if_pos ⟨hw0, hc0⟩, Option.getD_none]
    show singleEmit o' (pyOrS (extract_question o') lq) none ++
      parse_aux (pyOrS (extract_question o') lq) none rest = _
    rw [hse, List.singleton_append]

/-- Witness for claim C9 on three concrete messages: an undecodable payload
(skipped), a decodable question-only broadcast (no candidate, dropped silently
while the question context advances), and a top-level wallet/answer message
with no truth anywhere (emitted with reference `""`).  The full parse yields
exactly one pair, with non-empty wallet id and candidate. -/
theorem claim_C9_witness :
    parse_messages_to_pairs
        [⟨Json.str "junk", none⟩,
         ⟨Json.obj [("message", Json.str "x")],
          some (Json.obj [("question", Json.str "Q1")])⟩,
         ⟨Json.obj [("walletId", Json.str "w1"), ("answer", Json.str "42")], none⟩] =
      [⟨"w1", "Q1", "", "42"⟩] ∧
    ((⟨"w1", "Q1", "", "42"⟩ : ScorePair).walletId ≠ "" ∧
     (⟨"w1", "Q1", "", "42"⟩ : ScorePair).candidate ≠ "") ∧
    parse_aux none none [⟨Json.str "junk", none⟩] = parse_aux none none [] ∧
    parse_aux none none
        [⟨Json.obj [("message", Json.str "x")],
          some (Json.obj [("question", Json.str "Q1")])⟩] =
      parse_aux (some "Q1") none [] ∧
    parse_aux none none
        [⟨Json.obj [("walletId", Json.str "w1"), ("answer", Json.str "42")], none⟩] =
      ⟨"w1", "", "", "42"⟩ :: parse_aux none none [] := by
  have h := claim_C9_parser_robustness
    [⟨Json.str "junk", none⟩,
     ⟨Json.obj [("message", Json.str "x")],
      some (Json.obj [("question", Json.str "Q1")])⟩,
     ⟨Json.obj [("walletId", Json.str "w1"), ("answer", Json.str "42")], none⟩]
    ⟨Json.str "junk", none⟩
    ⟨Json.obj [("message", Json.str "x")],
     some (Json.obj [("question", Json.str "Q1")])⟩
    ⟨Json.obj [("walletId", Json.str "w1"), ("answer", Json.str "42")], none⟩
    [] none none
    [("question", Json.str "Q1")]
    [("walletId", Json.str "w1"), ("answer", Json.str "42")]
    "w1" "42"
    rfl rfl rfl rfl rfl rfl rfl (by decide) rfl (by decide) rfl
  exact ⟨rfl, h.1 ⟨"w1", "Q1", "", "42"⟩ (by decide), h.2.1, h.2.2.1, h.2.2.2⟩
